import Mathlib

/-!
# Verification of the DNA sequence alignment tool (src/test1.cpp)

Shallow embedding of the core of the aligner:

* the symbol codec (`dna_to_num`, `reverse_dna`),
* the rolling-hash reference index (`build_reference_hash`),
* the dynamic-programming path planner (`find_optimal_path`),
* the path reconstructor (`reconstruct_path`),
* the driver composition of `main` (`buildIndex`, `align`, `run`).

Sequences are lists over the four-symbol alphabet `Base` (the core is
only ever invoked on validated A/T/C/G strings; `validate_dna` in `main`
rejects everything else before the core runs).  The C++ `uint64`
arithmetic is modelled on `Nat` with an explicit `% 2^64` where the code
adds one to a dp entry; everywhere else the source values provably stay
below `2^64`.
-/

/-- The four DNA symbols.  `main` validates both inputs to this alphabet
before the core is invoked. -/
inductive Base where
  | A | T | C | G
deriving DecidableEq, Repr

open Base

/-- Symbol encoding `dna_to_num` from the source: A,T,C,G ↦ 1,2,3,4. -/
def dna_to_num : Base → Nat
  | .A => 1
  | .T => 2
  | .C => 3
  | .G => 4

/-- Strand complement, the `switch` inside `reverse_dna`. -/
def complement : Base → Base
  | .A => .T
  | .T => .A
  | .C => .G
  | .G => .C

/-- Function `reverse_dna` from the source: read the string back-to-front,
complementing every symbol. -/
def reverse_dna (dna : List Base) : List Base :=
  dna.reverse.map complement

/-- The rolling-hash modulus `MOD = 10000000000007ULL`. -/
def MOD : Nat := 10000000000007

/-- The value `2^64`, the wrap-around modulus of the C++ `uint64` arithmetic. -/
def UINT64 : Nat := 2 ^ 64

/-- The value `numeric_limits<uint64_t>::max() - 20`, the "unreachable" dp sentinel. -/
def SENTINEL : Nat := UINT64 - 21

/-- One step of the rolling hash: `hash = (hash * 5 + dna_to_num c) % MOD`. -/
def hashStep (h : Nat) (c : Base) : Nat := (h * 5 + dna_to_num c) % MOD

/-- Rolling hash of a whole sequence (the value the inner loops accumulate). -/
def hashDNA (l : List Base) : Nat := l.foldl hashStep 0

/-- The rolling hash without the modulus; used to analyse collisions. -/
def valStep (h : Nat) (c : Base) : Nat := h * 5 + dna_to_num c

/-- Polynomial value of a sequence in base 5 with digits 1..4. -/
def valDNA (l : List Base) : Nat := l.foldl valStep 0

/-- The inclusive substring `[s, e]` of a sequence. -/
def subSeg (l : List Base) (s e : Nat) : List Base := (l.drop s).take (e + 1 - s)

/-- Rolling hash of the inclusive substring `[s, e]`. -/
def hashSub (l : List Base) (s e : Nat) : Nat := hashDNA (subSeg l s e)

/-- Hash of the half-open slice `[s, e)`; the running hash held by the
inner loops just before they process position `e`. -/
def hashPre (l : List Base) (s e : Nat) : Nat := hashDNA ((l.drop s).take (e - s))

/-- Structure `RefSeq { uint64 start; uint64 end; bool reverse; }` from the source. -/
structure RefSeq where
  start : Nat
  end_ : Nat
  reverse : Bool
deriving DecidableEq, Repr

/-- The `unordered_map<uint64, RefSeq>`, as an association list with
insert-if-absent discipline (at most one entry per key). -/
abbrev HashIndex := List (Nat × RefSeq)

/-- Lookup `map.find(hash)`: first entry with the given key. -/
def mapFind : HashIndex → Nat → Option RefSeq
  | [], _ => none
  | (k, v) :: rest, h => if h = k then some v else mapFind rest h

/-- Insertion `if (map.find(hash) == map.end()) map[hash] = ref;` — insert only
when the key is absent. -/
def mapInsert (m : HashIndex) (k : Nat) (v : RefSeq) : HashIndex :=
  match mapFind m k with
  | some _ => m
  | none => m ++ [(k, v)]

/-- The stored location for substring `[start, e]` of the oriented
sequence: translated back to original coordinates on the reverse pass. -/
def refSeqOf (n start e : Nat) (rev : Bool) : RefSeq :=
  if rev then ⟨n - e - 1, n - start - 1, true⟩ else ⟨start, e, false⟩

/-- Inner loop of `build_reference_hash`: `for (end = e; end < n; ++end)`
with running hash `h`; `rest` is the oriented sequence from position `e`. -/
def buildInner (n start : Nat) (rev : Bool) : Nat → Nat → List Base → HashIndex → HashIndex
  | _, _, [], m => m
  | e, h, c :: rest, m =>
    let h' := (h * 5 + dna_to_num c) % MOD
    buildInner n start rev (e + 1) h' rest (mapInsert m h' (refSeqOf n start e rev))

/-- Outer loop of `build_reference_hash`: `for (start = 0; start < n; ++start)`. -/
def buildOuter (n : Nat) (seq : List Base) (rev : Bool) (m : HashIndex) : HashIndex :=
  (List.range n).foldl (fun m start => buildInner n start rev start 0 (seq.drop start) m) m

/-- Function `build_reference_hash(dna, map, reverse)` from the source. -/
def build_reference_hash (dna : List Base) (m : HashIndex) (rev : Bool) : HashIndex :=
  buildOuter dna.length (if rev then reverse_dna dna else dna) rev m

/-- Structure `Trace` from the source. -/
structure Trace where
  ref_seq : RefSeq
  next : Nat
  query_start : Nat
  query_end : Nat
deriving DecidableEq, Repr

/-- Pointwise array update (`dp[start] = ...`). -/
def setF {α : Type} (f : Nat → α) (i : Nat) (v : α) : Nat → α :=
  fun j => if j = i then v else f j

/-- Inner loop of `find_optimal_path` at a fixed `start`: scan `end`
upward, look the running hash up in the index and update `dp[start]` /
`trace[start]` on a strictly better cost, or on an equal cost when the
candidate is on the forward strand. -/
def scanInner (ref_map : HashIndex) (start : Nat) :
    Nat → Nat → List Base → (Nat → Nat) → (Nat → Option Trace) →
    (Nat → Nat) × (Nat → Option Trace)
  | _, _, [], dp, tr => (dp, tr)
  | e, h, c :: rest, dp, tr =>
    let h' := (h * 5 + dna_to_num c) % MOD
    match mapFind ref_map h' with
    | none => scanInner ref_map start (e + 1) h' rest dp tr
    | some r =>
      let new_cost := (dp (e + 1) + 1) % UINT64
      if new_cost < dp start ∨ (new_cost = dp start ∧ r.reverse = false) then
        scanInner ref_map start (e + 1) h' rest
          (setF dp start new_cost)
          (setF tr start (some ⟨r, e + 1, start, e⟩))
      else
        scanInner ref_map start (e + 1) h' rest dp tr

/-- Outer loop of `find_optimal_path`: `for (start = query_len-1; start >= 0; --start)`.
Calling it with counter `k` processes starts `k-1, k-2, ..., 0`. -/
def planOuter (q : List Base) (m : HashIndex) :
    Nat → (Nat → Nat) × (Nat → Option Trace) → (Nat → Nat) × (Nat → Option Trace)
  | 0, st => st
  | k + 1, st => planOuter q m k (scanInner m k k 0 (q.drop k) st.1 st.2)

/-- Initial dp array: `dp[query_len] = 0`, everything else the sentinel. -/
def dpInit (len : Nat) : Nat → Nat := fun i => if i = len then 0 else SENTINEL

/-- Function `find_optimal_path`, keeping both the dp table and the trace array. -/
def find_optimal_path_full (q : List Base) (m : HashIndex) :
    (Nat → Nat) × (Nat → Option Trace) :=
  planOuter q m q.length (dpInit q.length, fun _ => none)

/-- Function `find_optimal_path` as in the source: it returns the trace array. -/
def find_optimal_path (q : List Base) (m : HashIndex) : Nat → Option Trace :=
  (find_optimal_path_full q m).2

/-- Structure `MatchSegment` from the source. -/
structure MatchSegment where
  ref_info : RefSeq
  query_start : Nat
  query_end : Nat
deriving DecidableEq, Repr

/-- Result of `reconstruct_path`: either the segment list, or the thrown
`runtime_error("Alignment break: No match found at position p")`.
`fuelOut` marks that the C++ `while` loop would still be running after
the given number of iterations; for traces produced by
`find_optimal_path` this is proved never to happen. -/
inductive RecResult where
  | ok (segs : List MatchSegment)
  | breakAt (pos : Nat)
  | fuelOut
deriving DecidableEq, Repr

/-- The `while (pos < query_len)` loop of `reconstruct_path`. -/
def reconstructGo (tr : Nat → Option Trace) (query_len : Nat) : Nat → Nat → RecResult
  | 0, _ => .fuelOut
  | fuel + 1, pos =>
    if pos < query_len then
      match tr pos with
      | none => .breakAt pos
      | some t =>
        match reconstructGo tr query_len fuel t.next with
        | .ok segs => .ok (⟨t.ref_seq, t.query_start, t.query_end⟩ :: segs)
        | r => r
    else .ok []

/-- Function `reconstruct_path(trace, query_len)` from the source. -/
def reconstruct_path (tr : Nat → Option Trace) (query_len : Nat) : RecResult :=
  reconstructGo tr query_len (query_len + 1) 0

/-- The index `main` builds: forward pass into an empty map, then the
reverse-complement pass into the same map. -/
def buildIndex (r : List Base) : HashIndex :=
  build_reference_hash r (build_reference_hash r [] false) true

/-- The core alignment: plan, then reconstruct. -/
def align (q : List Base) (m : HashIndex) : RecResult :=
  reconstruct_path (find_optimal_path q m) q.length

/-- Outcome of the `main` driver on two validated sequences. -/
inductive RunResult where
  | emptyRefError
  | emptyQueryError
  | core (r : RecResult)
deriving DecidableEq, Repr

/-- The driver: `main` rejects an empty reference, then an empty query,
and only then invokes the core. -/
def run (ref query : List Base) : RunResult :=
  if ref = [] then .emptyRefError
  else if query = [] then .emptyQueryError
  else .core (align query (buildIndex ref))

/-! ### Derived definitions used by the specification statements -/

/-- Loop `buildOuter` restricted to an explicit list of start positions;
`buildOuter n seq rev m = buildFold n seq rev (List.range n) m`. -/
def buildFold (n : Nat) (seq : List Base) (rev : Bool) (l : List Nat) (m : HashIndex) :
    HashIndex :=
  l.foldl (fun m s => buildInner n s rev s 0 (seq.drop s) m) m

/-- Predicate `Covers m q s k`: the query suffix `[s, q.length)` can be partitioned
into `k` contiguous segments, each of whose rolling hash is a key of the
index `m`.  This is the chaining notion the minimality claim quantifies
over. -/
inductive Covers (m : HashIndex) (q : List Base) : Nat → Nat → Prop where
  | nil : Covers m q q.length 0
  | cons {s e k : Nat} : s ≤ e → e < q.length →
      (mapFind m (hashSub q s e)).isSome = true →
      Covers m q (e + 1) k → Covers m q s (k + 1)

/-- Predicate `Chained p u segs`: the segments' query ranges tile `[p, u)` exactly,
in order and without gaps. -/
def Chained : Nat → Nat → List MatchSegment → Prop
  | p, u, [] => p = u
  | p, u, sg :: rest => sg.query_start = p ∧ p ≤ sg.query_end ∧ Chained (sg.query_end + 1) u rest

/-- Bound invariant of the dp table: every entry is either the sentinel
or at most the length of the suffix it covers. -/
def DPBound (q : List Base) (dp : Nat → Nat) (j : Nat) : Prop :=
  dp j = SENTINEL ∨ dp j ≤ q.length - j

/-- The dp entry at `s` is at most one more than the dp entry after any
index-matched segment starting at `s` and ending below `bound`. -/
def UBUpTo (q : List Base) (m : HashIndex) (dp : Nat → Nat) (s bound : Nat) : Prop :=
  ∀ e r, s ≤ e → e < bound → e < q.length →
    mapFind m (hashSub q s e) = some r → dp s ≤ dp (e + 1) + 1

/-- Correspondence between the dp entry and the stored decision at `s`:
either both are untouched, or the decision records an index-matched
segment starting at `s` whose cost explains `dp s`. -/
def Corr (q : List Base) (m : HashIndex) (dp : Nat → Nat) (tr : Nat → Option Trace)
    (s : Nat) : Prop :=
  (dp s = SENTINEL ∧ tr s = none) ∨
  (∃ t, tr s = some t ∧ t.query_start = s ∧ s ≤ t.query_end ∧ t.query_end < q.length ∧
    t.next = t.query_end + 1 ∧ mapFind m (hashSub q s t.query_end) = some t.ref_seq ∧
    dp s = dp t.next + 1 ∧ dp t.next ≤ q.length - t.next ∧ dp s ≤ q.length - s)

/-- Tie-break property at `s` over candidates ending below `bound`: if a
forward-strand candidate achieves the optimal cost, the stored decision
is forward-strand and extends at least that far. -/
def TBUpTo (q : List Base) (m : HashIndex) (dp : Nat → Nat) (tr : Nat → Option Trace)
    (s bound : Nat) : Prop :=
  ∀ e r, s ≤ e → e < bound → e < q.length →
    mapFind m (hashSub q s e) = some r → r.reverse = false → dp (e + 1) + 1 = dp s →
    ∃ t, tr s = some t ∧ t.ref_seq.reverse = false ∧ e ≤ t.query_end

/-- Everything `find_optimal_path` guarantees at a processed start
position: the dp entry is a lower bound over all candidates, the stored
decision explains it, the tie-break picks the longest forward candidate,
and the entry respects the suffix-length bound. -/
def PlannedAt (q : List Base) (m : HashIndex) (dp : Nat → Nat) (tr : Nat → Option Trace)
    (s : Nat) : Prop :=
  UBUpTo q m dp s q.length ∧ Corr q m dp tr s ∧ TBUpTo q m dp tr s q.length ∧ DPBound q dp s

/-- A 30-symbol reference whose full-string rolling hash collides with the
hash of the single symbol `C` (`hashSub cex6 0 29 = 3 = dna_to_num C`):
`TACTTGATAAAGTGGTGAAAAAAAAATCGT`.  Length 30 is minimal for such a
collision, because `MOD = 2^13 * 5^13 + 7` forces small residues of
all-nonzero-digit base-5 values to exceed `5^29`. -/
def cex6 : List Base :=
  [.T, .A, .C, .T, .T, .G, .A, .T, .A, .A, .A, .G, .T, .G, .G,
   .T, .G, .A, .A, .A, .A, .A, .A, .A, .A, .A, .T, .C, .G, .T]

/-! ## Symbol codec lemmas -/

theorem complement_complement (b : Base) : complement (complement b) = b := by
  cases b <;> rfl

theorem dna_to_num_pos (b : Base) : 1 ≤ dna_to_num b := by
  cases b <;> decide

theorem dna_to_num_lt_five (b : Base) : dna_to_num b < 5 := by
  cases b <;> decide

theorem dna_to_num_injective : Function.Injective dna_to_num := by
  intro a b h
  cases a <;> cases b <;> first | rfl | exact absurd h (by decide)

theorem reverse_dna_length (l : List Base) : (reverse_dna l).length = l.length := by
  simp [reverse_dna]

theorem mem_reverse_dna {c : Base} {l : List Base} :
    c ∈ reverse_dna l ↔ complement c ∈ l := by
  simp only [reverse_dna, List.mem_map, List.mem_reverse]
  constructor
  · rintro ⟨b, hb, rfl⟩
    rwa [complement_complement]
  · intro h
    exact ⟨complement c, h, complement_complement c⟩

/-! ## Rolling hash: value, modulus, injectivity on short sequences -/

theorem valDNA_append_singleton (l : List Base) (c : Base) :
    valDNA (l ++ [c]) = valDNA l * 5 + dna_to_num c := by
  simp [valDNA, List.foldl_append, valStep]

theorem valDNA_nil : valDNA [] = 0 := rfl

theorem valDNA_pos {l : List Base} (h : l ≠ []) : 1 ≤ valDNA l := by
  induction l using List.reverseRecOn with
  | nil => exact absurd rfl h
  | append_singleton l c _ =>
    rw [valDNA_append_singleton]
    have := dna_to_num_pos c
    omega

theorem valDNA_lt (l : List Base) : valDNA l < 5 ^ l.length := by
  induction l using List.reverseRecOn with
  | nil => simp [valDNA_nil]
  | append_singleton l c ih =>
    rw [valDNA_append_singleton]
    have h5 := dna_to_num_lt_five c
    have : 5 ^ (l ++ [c]).length = 5 ^ l.length * 5 := by
      simp [List.length_append, pow_succ]
    omega

theorem valDNA_injective : ∀ l₁ l₂ : List Base, valDNA l₁ = valDNA l₂ → l₁ = l₂ := by
  intro l₁
  induction l₁ using List.reverseRecOn with
  | nil =>
    intro l₂ h
    rcases l₂.eq_nil_or_concat with rfl | ⟨L, b, rfl⟩
    · rfl
    · rw [List.concat_eq_append, valDNA_append_singleton, valDNA_nil] at h
      have := dna_to_num_pos b
      omega
  | append_singleton l c ih =>
    intro l₂ h
    rcases l₂.eq_nil_or_concat with rfl | ⟨L, b, rfl⟩
    · rw [valDNA_append_singleton, valDNA_nil] at h
      have := dna_to_num_pos c
      omega
    · rw [List.concat_eq_append, valDNA_append_singleton, valDNA_append_singleton] at h
      have hc := dna_to_num_lt_five c
      have hb := dna_to_num_lt_five b
      have hmod : dna_to_num c = dna_to_num b := by omega
      have hval : valDNA l = valDNA L := by omega
      rw [ih L hval, dna_to_num_injective hmod, List.concat_eq_append]

theorem hashDNA_eq_valDNA_mod (l : List Base) : hashDNA l = valDNA l % MOD := by
  suffices h : ∀ (l : List Base) (a : Nat),
      l.foldl hashStep (a % MOD) = (l.foldl valStep a) % MOD by
    have := h l 0
    simpa [hashDNA, valDNA] using this
  intro l
  induction l with
  | nil => intro a; rfl
  | cons c rest ih =>
    intro a
    have hstep : hashStep (a % MOD) c = valStep a c % MOD := by
      simp [hashStep, valStep, Nat.mod_mul_mod, Nat.add_mod, Nat.mul_mod]
    simp only [List.foldl_cons]
    rw [hstep, ih (valStep a c)]

theorem five_pow_18_lt_MOD : 5 ^ 18 < MOD := by decide

theorem hashDNA_eq_valDNA_of_short {l : List Base} (h : l.length ≤ 18) :
    hashDNA l = valDNA l := by
  rw [hashDNA_eq_valDNA_mod]
  exact Nat.mod_eq_of_lt (lt_of_lt_of_le (valDNA_lt l)
    (le_trans (Nat.pow_le_pow_right (by norm_num) h) (le_of_lt five_pow_18_lt_MOD)))

theorem hashDNA_injective_short {l₁ l₂ : List Base}
    (h₁ : l₁.length ≤ 18) (h₂ : l₂.length ≤ 18) (h : hashDNA l₁ = hashDNA l₂) :
    l₁ = l₂ := by
  apply valDNA_injective
  rw [← hashDNA_eq_valDNA_of_short h₁, ← hashDNA_eq_valDNA_of_short h₂, h]

/-! ## Substrings and the running hash of the inner loops -/

theorem subSeg_length {l : List Base} {s e : Nat} (hse : s ≤ e) (he : e < l.length) :
    (subSeg l s e).length = e + 1 - s := by
  simp only [subSeg, List.length_take, List.length_drop]
  omega

theorem subSeg_single {l : List Base} {s : Nat} (hs : s < l.length) :
    subSeg l s s = [l[s]] := by
  simp only [subSeg]
  rw [List.drop_eq_getElem_cons hs]
  have h1 : s + 1 - s = 1 := by omega
  rw [h1]
  rfl

theorem hashSub_single {l : List Base} {s : Nat} (hs : s < l.length) :
    hashSub l s s = dna_to_num l[s] := by
  rw [hashSub, subSeg_single hs]
  show (0 * 5 + dna_to_num l[s]) % MOD = dna_to_num l[s]
  rw [Nat.zero_mul, Nat.zero_add]
  exact Nat.mod_eq_of_lt (lt_trans (dna_to_num_lt_five _) (by decide))

theorem mem_subSeg {l : List Base} {s e p : Nat}
    (hsp : s ≤ p) (hpe : p ≤ e) (hp : p < l.length) :
    l[p] ∈ subSeg l s e := by
  apply List.getElem?_mem (n := p - s)
  simp only [subSeg]
  rw [List.getElem?_take_of_lt (by omega), List.getElem?_drop]
  have : s + (p - s) = p := by omega
  rw [this]
  exact List.getElem?_eq_getElem hp

theorem subSeg_subset {l : List Base} {s e : Nat} : subSeg l s e ⊆ l :=
  fun _ h => ((List.take_sublist _ _).subset h) |> (List.drop_sublist _ _).subset

theorem hashPre_self (l : List Base) (s : Nat) : hashPre l s s = 0 := by
  simp [hashPre, hashDNA]

theorem hashSub_eq_hashPre_succ (l : List Base) (s e : Nat) :
    hashSub l s e = hashPre l s (e + 1) := rfl

theorem hashPre_succ_of_getElem {l : List Base} {s e : Nat} {c : Base}
    (hse : s ≤ e) (he : e < l.length) (hc : l[e] = c) :
    hashPre l s (e + 1) = hashStep (hashPre l s e) c := by
  simp only [hashPre]
  have hstep : e + 1 - s = (e - s) + 1 := by omega
  rw [hstep, List.take_succ]
  have hget : (l.drop s)[e - s]? = some c := by
    rw [List.getElem?_drop]
    have : s + (e - s) = e := by omega
    rw [this, List.getElem?_eq_getElem he, hc]
  rw [hget]
  simp only [Option.toList_some, hashDNA, List.foldl_append, List.foldl_cons, List.foldl_nil]

/-! ## Hash-map (association list) lemmas -/

theorem mapFind_append (m₁ m₂ : HashIndex) (k : Nat) :
    mapFind (m₁ ++ m₂) k =
      match mapFind m₁ k with
      | some v => some v
      | none => mapFind m₂ k := by
  induction m₁ with
  | nil => rfl
  | cons p rest ih =>
    obtain ⟨k', v'⟩ := p
    by_cases h : k = k' <;> simp [mapFind, h, ih]

theorem mapInsert_preserves {m : HashIndex} {k : Nat} {v : RefSeq} (k' : Nat) (v' : RefSeq)
    (h : mapFind m k = some v) : mapFind (mapInsert m k' v') k = some v := by
  unfold mapInsert
  cases hf : mapFind m k' with
  | some _ => exact h
  | none =>
    rw [mapFind_append, h]

theorem mapInsert_self {m : HashIndex} {k : Nat} (v : RefSeq)
    (h : mapFind m k = none) : mapFind (mapInsert m k v) k = some v := by
  unfold mapInsert
  rw [h, mapFind_append, h]
  simp [mapFind]

theorem mapInsert_isSome_self (m : HashIndex) (k : Nat) (v : RefSeq) :
    (mapFind (mapInsert m k v) k).isSome = true := by
  cases h : mapFind m k with
  | some w => rw [mapInsert_preserves k v h]; rfl
  | none => rw [mapInsert_self v h]; rfl

theorem mapInsert_absent {m : HashIndex} {k : Nat} (k' : Nat) (v' : RefSeq)
    (h : mapFind m k = none) (hne : k ≠ k') : mapFind (mapInsert m k' v') k = none := by
  unfold mapInsert
  cases hf : mapFind m k' with
  | some _ => exact h
  | none =>
    rw [mapFind_append, h]
    simp [mapFind, hne]

theorem mapInsert_new {m : HashIndex} {k k' : Nat} {v v' : RefSeq}
    (h : mapFind (mapInsert m k' v') k = some v) (habs : mapFind m k = none) :
    k = k' ∧ v = v' := by
  unfold mapInsert at h
  cases hf : mapFind m k' with
  | some _ => rw [hf] at h; rw [habs] at h; exact absurd h (by simp)
  | none =>
    rw [hf, mapFind_append, habs] at h
    by_cases hk : k = k'
    · subst hk
      simp [mapFind] at h
      exact ⟨rfl, h.symm⟩
    · simp [mapFind, hk] at h

/-! ## Reference-index construction lemmas -/

theorem buildInner_preserves {n s : Nat} {rev : Bool} {k : Nat} {v : RefSeq} :
    ∀ (rest : List Base) (e h : Nat) (m : HashIndex),
      mapFind m k = some v → mapFind (buildInner n s rev e h rest m) k = some v := by
  intro rest
  induction rest with
  | nil => intro e h m hm; exact hm
  | cons c rest ih =>
    intro e h m hm
    exact ih (e + 1) _ _ (mapInsert_preserves _ _ hm)

theorem buildFold_preserves {n : Nat} {seq : List Base} {rev : Bool} {k : Nat} {v : RefSeq} :
    ∀ (l : List Nat) (m : HashIndex),
      mapFind m k = some v → mapFind (buildFold n seq rev l m) k = some v := by
  intro l
  induction l with
  | nil => intro m hm; exact hm
  | cons s l ih =>
    intro m hm
    exact ih _ (buildInner_preserves _ _ _ _ hm)

theorem buildOuter_eq_buildFold (n : Nat) (seq : List Base) (rev : Bool) (m : HashIndex) :
    buildOuter n seq rev m = buildFold n seq rev (List.range n) m := rfl

theorem build_preserves {dna : List Base} {m : HashIndex} {rev : Bool} {k : Nat} {v : RefSeq}
    (hm : mapFind m k = some v) :
    mapFind (build_reference_hash dna m rev) k = some v := by
  unfold build_reference_hash
  rw [buildOuter_eq_buildFold]
  exact buildFold_preserves _ _ hm

theorem drop_cons_facts {seq : List Base} {e : Nat} {c : Base} {rest : List Base}
    (h : seq.drop e = c :: rest) :
    ∃ he : e < seq.length, seq[e] = c ∧ rest = seq.drop (e + 1) := by
  have he : e < seq.length := by
    by_contra hlen
    rw [List.drop_eq_nil_iff.2 (by omega)] at h
    exact absurd h (by simp)
  have := List.drop_eq_getElem_cons (l := seq) (n := e) he
  rw [h] at this
  injection this with h1 h2
  exact ⟨he, h1.symm, h2⟩

theorem buildInner_shape {n s : Nat} {seq : List Base} {rev : Bool} {k : Nat} {v : RefSeq} :
    ∀ (rest : List Base) (e : Nat) (m : HashIndex),
      rest = seq.drop e → s ≤ e →
      mapFind (buildInner n s rev e (hashPre seq s e) rest m) k = some v →
      mapFind m k = some v ∨
        ∃ e', e ≤ e' ∧ e' < seq.length ∧ k = hashSub seq s e' ∧ v = refSeqOf n s e' rev := by
  intro rest
  induction rest with
  | nil => intro e m _ _ hfind; exact Or.inl hfind
  | cons c rest ih =>
    intro e m hdrop hse hfind
    obtain ⟨he, hc, hrest⟩ := drop_cons_facts hdrop.symm
    have hstep : (hashPre seq s e * 5 + dna_to_num c) % MOD = hashSub seq s e := by
      rw [hashSub_eq_hashPre_succ, hashPre_succ_of_getElem hse he hc]
      rfl
    simp only [buildInner, hstep] at hfind
    have hpre : hashSub seq s e = hashPre seq s (e + 1) := hashSub_eq_hashPre_succ _ _ _
    rw [hpre] at hfind
    have := ih (e + 1) _ hrest (by omega) hfind
    rcases this with hm | ⟨e', he1, he2, he3, he4⟩
    · -- the recursive call found it in `mapInsert m (hashSub seq s e) (refSeqOf n s e rev)`
      cases habs : mapFind m k with
      | some w =>
        have hp := mapInsert_preserves (m := m) (k := k) (v := w)
          (hashSub seq s e) (refSeqOf n s e rev) habs
        rw [hpre] at hp
        rw [hp] at hm
        exact Or.inl hm
      | none =>
        have hm' : mapFind (mapInsert m (hashSub seq s e) (refSeqOf n s e rev)) k =
            some v := by
          rw [hpre]
          exact hm
        have hnew := mapInsert_new hm' habs
        exact Or.inr ⟨e, le_refl e, he, hnew.1, hnew.2⟩
    · exact Or.inr ⟨e', by omega, he2, he3, he4⟩

theorem buildFold_shape {n : Nat} {seq : List Base} {rev : Bool} {k : Nat} {v : RefSeq} :
    ∀ (l : List Nat) (m : HashIndex),
      mapFind (buildFold n seq rev l m) k = some v →
      mapFind m k = some v ∨
        ∃ s, s ∈ l ∧ ∃ e, s ≤ e ∧ e < seq.length ∧
          k = hashSub seq s e ∧ v = refSeqOf n s e rev := by
  intro l
  induction l with
  | nil => intro m hm; exact Or.inl hm
  | cons s l ih =>
    intro m hm
    rcases ih _ hm with hm1 | ⟨s', hs', rest⟩
    · have h0 : hashPre seq s s = 0 := hashPre_self seq s
      rw [← h0] at hm1
      rcases buildInner_shape (seq.drop s) s m rfl (le_refl s) hm1 with hm2 | ⟨e, h1, h2, h3, h4⟩
      · exact Or.inl hm2
      · exact Or.inr ⟨s, List.mem_cons_self s l, e, h1, h2, h3, h4⟩
    · exact Or.inr ⟨s', List.mem_cons_of_mem s hs', rest⟩

theorem build_shape {dna : List Base} {m : HashIndex} {rev : Bool} {k : Nat} {v : RefSeq}
    (h : mapFind (build_reference_hash dna m rev) k = some v) :
    mapFind m k = some v ∨
      ∃ s e, s ≤ e ∧ e < dna.length ∧
        k = hashSub (if rev then reverse_dna dna else dna) s e ∧
        v = refSeqOf dna.length s e rev := by
  unfold build_reference_hash at h
  rw [buildOuter_eq_buildFold] at h
  have hlen : (if rev then reverse_dna dna else dna).length = dna.length := by
    cases rev <;> simp [reverse_dna_length]
  rcases buildFold_shape _ _ h with hm | ⟨s, _, e, h1, h2, h3, h4⟩
  · exact Or.inl hm
  · exact Or.inr ⟨s, e, h1, by rw [← hlen]; exact h2, h3, h4⟩

theorem buildInner_binds (n s : Nat) (seq : List Base) (rev : Bool) {K e0 : Nat}
    (he0 : e0 < seq.length) (hK : hashSub seq s e0 = K) :
    ∀ (rest : List Base) (e : Nat) (m : HashIndex),
      rest = seq.drop e → s ≤ e → e ≤ e0 →
      mapFind m K = none →
      (∀ e', e ≤ e' → e' < e0 → hashSub seq s e' ≠ K) →
      mapFind (buildInner n s rev e (hashPre seq s e) rest m) K =
        some (refSeqOf n s e0 rev) := by
  intro rest
  induction rest with
  | nil =>
    intro e m hdrop hse hee0 habs hne
    exfalso
    have := List.drop_eq_nil_iff.1 hdrop.symm
    omega
  | cons c rest ih =>
    intro e m hdrop hse hee0 habs hne
    obtain ⟨he, hc, hrest⟩ := drop_cons_facts hdrop.symm
    have hstep : (hashPre seq s e * 5 + dna_to_num c) % MOD = hashSub seq s e := by
      rw [hashSub_eq_hashPre_succ, hashPre_succ_of_getElem hse he hc]
      rfl
    simp only [buildInner, hstep]
    rcases Nat.lt_or_ge e e0 with hlt | hge
    · -- this step's hash is not yet K; key stays absent, recurse
      have hne_e : hashSub seq s e ≠ K := hne e (le_refl e) hlt
      have habs' : mapFind (mapInsert m (hashSub seq s e) (refSeqOf n s e rev)) K = none :=
        mapInsert_absent _ _ habs (Ne.symm hne_e)
      have := ih (e + 1) _ hrest (by omega) (by omega) habs'
        (fun e' h1 h2 => hne e' (by omega) h2)
      rw [hashSub_eq_hashPre_succ] at this
      exact this
    · -- e = e0: this step inserts the binding, then it is preserved
      have heq : e = e0 := by omega
      subst heq
      have hbind := mapInsert_self (m := m) (k := K) (refSeqOf n s e rev)  habs
      rw [← hK]
      rw [← hK] at hbind
      exact buildInner_preserves _ _ _ _ hbind

theorem buildFold_absent {n : Nat} {seq : List Base} {rev : Bool} {K : Nat} :
    ∀ (l : List Nat) (m : HashIndex),
      mapFind m K = none →
      (∀ s ∈ l, ∀ e, s ≤ e → e < seq.length → hashSub seq s e ≠ K) →
      mapFind (buildFold n seq rev l m) K = none := by
  intro l m habs hne
  cases hres : mapFind (buildFold n seq rev l m) K with
  | none => rfl
  | some v =>
    rcases buildFold_shape l m hres with hm | ⟨s, hs, e, h1, h2, h3, _⟩
    · rw [habs] at hm
      exact absurd hm (by simp)
    · exact absurd h3.symm (hne s hs e h1 h2)

theorem buildFold_first_writer {n : Nat} {seq : List Base} {rev : Bool} {K s0 e0 : Nat}
    (hs0e0 : s0 ≤ e0) (he0 : e0 < seq.length) (hK : hashSub seq s0 e0 = K)
    (hrow : ∀ e, s0 ≤ e → e < e0 → hashSub seq s0 e ≠ K)
    (l1 l2 : List Nat) (m : HashIndex)
    (habs : mapFind m K = none)
    (hpre : ∀ s ∈ l1, ∀ e, s ≤ e → e < seq.length → hashSub seq s e ≠ K) :
    mapFind (buildFold n seq rev (l1 ++ s0 :: l2) m) K = some (refSeqOf n s0 e0 rev) := by
  have hsplit : buildFold n seq rev (l1 ++ s0 :: l2) m =
      buildFold n seq rev l2
        (buildInner n s0 rev s0 0 (seq.drop s0) (buildFold n seq rev l1 m)) := by
    simp [buildFold, List.foldl_append]
  rw [hsplit]
  have habs1 : mapFind (buildFold n seq rev l1 m) K = none :=
    buildFold_absent l1 m habs hpre
  have h0 : (0 : Nat) = hashPre seq s0 s0 := (hashPre_self seq s0).symm
  rw [h0]
  have hbind := buildInner_binds n s0 seq rev he0 hK (seq.drop s0) s0
    (buildFold n seq rev l1 m) rfl (le_refl s0) hs0e0 habs1
    (fun e' h1 h2 => hrow e' h1 h2)
  exact buildFold_preserves l2 _ hbind

theorem range_split (s0 : Nat) : ∀ {n : Nat}, s0 < n →
    ∃ l2, List.range n = List.range s0 ++ s0 :: l2 := by
  intro n
  induction n with
  | zero => intro h; omega
  | succ n ih =>
    intro h
    rcases Nat.lt_or_ge s0 n with hlt | hge
    · obtain ⟨l2, hl2⟩ := ih hlt
      refine ⟨l2 ++ [n], ?_⟩
      rw [List.range_succ, hl2]
      simp
    · have : s0 = n := by omega
      subst this
      exact ⟨[], by rw [List.range_succ]⟩

theorem build_first_writer {dna : List Base} (seq : List Base) {m : HashIndex}
    {rev : Bool} {K s0 e0 : Nat}
    (hseq : seq = if rev then reverse_dna dna else dna)
    (hs0e0 : s0 ≤ e0) (he0 : e0 < seq.length) (hK : hashSub seq s0 e0 = K)
    (hrow : ∀ e, s0 ≤ e → e < e0 → hashSub seq s0 e ≠ K)
    (hprev : ∀ s, s < s0 → ∀ e, s ≤ e → e < seq.length → hashSub seq s e ≠ K)
    (habs : mapFind m K = none) :
    mapFind (build_reference_hash dna m rev) K = some (refSeqOf dna.length s0 e0 rev) := by
  have hlen : seq.length = dna.length := by
    subst hseq
    cases rev <;> simp [reverse_dna_length]
  have hgoal : build_reference_hash dna m rev = buildFold dna.length seq rev
      (List.range dna.length) m := by
    rw [hseq]
    rfl
  rw [hgoal]
  obtain ⟨l2, hr⟩ := range_split s0 (n := dna.length) (by omega)
  rw [hr]
  refine buildFold_first_writer hs0e0 ?_ hK hrow _ l2 m habs ?_
  · rw [hlen] at he0
    rw [hlen]
    exact he0
  · intro s hs e h1 h2
    exact hprev s (List.mem_range.1 hs) e h1 (by rw [hlen] at h2; rw [hlen]; exact h2)

theorem buildInner_single_present (n : Nat) {s : Nat} {seq : List Base} (rev : Bool)
    (hs : s < seq.length) (m : HashIndex) :
    ∃ v, mapFind (buildInner n s rev s 0 (seq.drop s) m) (dna_to_num (seq[s])) = some v := by
  rw [List.drop_eq_getElem_cons hs]
  have hnum : (0 * 5 + dna_to_num (seq[s])) % MOD = dna_to_num (seq[s]) := by
    rw [Nat.zero_mul, Nat.zero_add]
    exact Nat.mod_eq_of_lt (lt_trans (dna_to_num_lt_five _) (by decide))
  simp only [buildInner, hnum]
  have hins := mapInsert_isSome_self m (dna_to_num (seq[s])) (refSeqOf n s s rev)
  rw [Option.isSome_iff_exists] at hins
  obtain ⟨v, hv⟩ := hins
  exact ⟨v, buildInner_preserves _ _ _ _ hv⟩

theorem buildFold_single_present {n : Nat} {seq : List Base} {rev : Bool} {s : Nat}
    (hs : s < seq.length) :
    ∀ (l : List Nat) (m : HashIndex), s ∈ l →
      ∃ v, mapFind (buildFold n seq rev l m) (dna_to_num (seq[s])) = some v := by
  intro l
  induction l with
  | nil => intro m h; exact absurd h (List.not_mem_nil s)
  | cons a l ih =>
    intro m hmem
    by_cases hal : s ∈ l
    · exact ih _ hal
    · have has : a = s := by
        rcases List.mem_cons.1 hmem with h | h
        · exact h.symm
        · exact absurd h hal
      subst has
      obtain ⟨v, hv⟩ := buildInner_single_present n rev hs m
      exact ⟨v, buildFold_preserves l _ hv⟩

theorem build_single_present {dna : List Base} {m : HashIndex} {c : Base} (hc : c ∈ dna) :
    ∃ v, mapFind (build_reference_hash dna m false) (dna_to_num c) = some v := by
  obtain ⟨s, hs, hsc⟩ := List.getElem_of_mem hc
  have hgoal : build_reference_hash dna m false = buildFold dna.length dna false
      (List.range dna.length) m := rfl
  rw [hgoal, ← hsc]
  exact buildFold_single_present hs _ m (List.mem_range.2 hs)

theorem buildIndex_single_present {r : List Base} {c : Base} (hc : c ∈ r) :
    ∃ v, mapFind (buildIndex r) (dna_to_num c) = some v := by
  obtain ⟨v, hv⟩ := build_single_present (m := []) hc
  exact ⟨v, build_preserves hv⟩

theorem hashDNA_single (c : Base) : hashDNA [c] = dna_to_num c := by
  show (0 * 5 + dna_to_num c) % MOD = dna_to_num c
  rw [Nat.zero_mul, Nat.zero_add]
  exact Nat.mod_eq_of_lt (lt_trans (dna_to_num_lt_five _) (by decide))

theorem buildIndex_single_short {r : List Base} {c : Base} {p : Nat}
    (hlen : r.length ≤ 18) (hp : p < r.length) (hc : r[p] = c)
    (hfirst : ∀ j, j < p → r[j]? ≠ some c) :
    mapFind (buildIndex r) (dna_to_num c) = some ⟨p, p, false⟩ := by
  have hfwd : mapFind (build_reference_hash r [] false) (dna_to_num c) =
      some (refSeqOf r.length p p false) := by
    refine build_first_writer r (by simp) (le_refl p) hp ?_ ?_ ?_ rfl
    · rw [hashSub_single hp, hc]
    · intro e h1 h2
      omega
    · intro s hs e h1 h2 heq
      have hsub : subSeg r s e = [c] := by
        apply hashDNA_injective_short _ (by simp)
        · rw [hashDNA_single]
          exact heq
        · rw [subSeg_length h1 h2]
          omega
      have hlen1 : (subSeg r s e).length = 1 := by rw [hsub]; rfl
      rw [subSeg_length h1 h2] at hlen1
      have hes : e = s := by omega
      subst hes
      rw [subSeg_single h2] at hsub
      have hec : r[e] = c := by injection hsub
      exact hfirst e (by omega) (by rw [List.getElem?_eq_getElem h2, hec])
  have : refSeqOf r.length p p false = ⟨p, p, false⟩ := by simp [refSeqOf]
  rw [this] at hfwd
  exact build_preserves hfwd

/-! ## Path planner lemmas -/

theorem UINT64_eq : UINT64 = 18446744073709551616 := by norm_num [UINT64]

theorem SENTINEL_eq : SENTINEL = 18446744073709551595 := by norm_num [SENTINEL, UINT64]

theorem setF_same {α : Type} (f : Nat → α) (i : Nat) (v : α) : setF f i v i = v := by
  simp [setF]

theorem setF_other {α : Type} (f : Nat → α) {i j : Nat} (v : α) (h : j ≠ i) :
    setF f i v j = f j := by
  simp [setF, h]

theorem mod_uint64_id {x : Nat} (h : x ≤ SENTINEL) : (x + 1) % UINT64 = x + 1 := by
  apply Nat.mod_eq_of_lt
  rw [SENTINEL_eq] at h
  rw [UINT64_eq]
  omega

theorem dpbound_le_sentinel {q : List Base} {dp : Nat → Nat} {j : Nat}
    (hL : q.length + 22 < UINT64) (h : DPBound q dp j) : dp j ≤ SENTINEL := by
  rcases h with h | h
  · omega
  · rw [SENTINEL_eq]
    rw [UINT64_eq] at hL
    omega

theorem hash_inner_step {q : List Base} {s e : Nat} {c : Base}
    (hse : s ≤ e) (he : e < q.length) (hc : q[e] = c) :
    (hashPre q s e * 5 + dna_to_num c) % MOD = hashSub q s e := by
  rw [hashSub_eq_hashPre_succ, hashPre_succ_of_getElem hse he hc]
  rfl

theorem scanInner_cons (m : HashIndex) (s e h : Nat) (c : Base) (rest : List Base)
    (dp : Nat → Nat) (tr : Nat → Option Trace) :
    scanInner m s e h (c :: rest) dp tr =
      match mapFind m ((h * 5 + dna_to_num c) % MOD) with
      | none => scanInner m s (e + 1) ((h * 5 + dna_to_num c) % MOD) rest dp tr
      | some r =>
        if (dp (e + 1) + 1) % UINT64 < dp s ∨
            ((dp (e + 1) + 1) % UINT64 = dp s ∧ r.reverse = false) then
          scanInner m s (e + 1) ((h * 5 + dna_to_num c) % MOD) rest
            (setF dp s ((dp (e + 1) + 1) % UINT64))
            (setF tr s (some ⟨r, e + 1, s, e⟩))
        else scanInner m s (e + 1) ((h * 5 + dna_to_num c) % MOD) rest dp tr := rfl

theorem scanInner_cons_none {m : HashIndex} {s e h : Nat} {c : Base} {rest : List Base}
    {dp : Nat → Nat} {tr : Nat → Option Trace}
    (hf : mapFind m ((h * 5 + dna_to_num c) % MOD) = none) :
    scanInner m s e h (c :: rest) dp tr =
      scanInner m s (e + 1) ((h * 5 + dna_to_num c) % MOD) rest dp tr := by
  rw [scanInner_cons, hf]

theorem scanInner_cons_some {m : HashIndex} {s e h : Nat} {c : Base} {rest : List Base}
    {dp : Nat → Nat} {tr : Nat → Option Trace} {r : RefSeq}
    (hf : mapFind m ((h * 5 + dna_to_num c) % MOD) = some r) :
    scanInner m s e h (c :: rest) dp tr =
      if (dp (e + 1) + 1) % UINT64 < dp s ∨
          ((dp (e + 1) + 1) % UINT64 = dp s ∧ r.reverse = false) then
        scanInner m s (e + 1) ((h * 5 + dna_to_num c) % MOD) rest
          (setF dp s ((dp (e + 1) + 1) % UINT64))
          (setF tr s (some ⟨r, e + 1, s, e⟩))
      else scanInner m s (e + 1) ((h * 5 + dna_to_num c) % MOD) rest dp tr := by
  rw [scanInner_cons, hf]

theorem scanInner_outside {m : HashIndex} {s : Nat} :
    ∀ (rest : List Base) (e h : Nat) (dp : Nat → Nat) (tr : Nat → Option Trace) (j : Nat),
      j ≠ s →
      (scanInner m s e h rest dp tr).1 j = dp j ∧
      (scanInner m s e h rest dp tr).2 j = tr j := by
  intro rest
  induction rest with
  | nil => intro e h dp tr j hj; exact ⟨rfl, rfl⟩
  | cons c rest ih =>
    intro e h dp tr j hj
    cases hf : mapFind m ((h * 5 + dna_to_num c) % MOD) with
    | none =>
      rw [scanInner_cons_none hf]
      exact ih (e + 1) _ dp tr j hj
    | some r =>
      rw [scanInner_cons_some hf]
      by_cases hcond : (dp (e + 1) + 1) % UINT64 < dp s ∨
          ((dp (e + 1) + 1) % UINT64 = dp s ∧ r.reverse = false)
      · rw [if_pos hcond]
        have := ih (e + 1) ((h * 5 + dna_to_num c) % MOD)
          (setF dp s ((dp (e + 1) + 1) % UINT64))
          (setF tr s (some ⟨r, e + 1, s, e⟩)) j hj
        simpa [setF, hj] using this
      · rw [if_neg hcond]
        exact ih (e + 1) _ dp tr j hj

theorem scanInner_master (q : List Base) (m : HashIndex) (s : Nat)
    (hL : q.length + 22 < UINT64) :
    ∀ (rest : List Base) (e : Nat) (dp : Nat → Nat) (tr : Nat → Option Trace),
      rest = q.drop e → s ≤ e →
      (∀ j, s < j → DPBound q dp j) →
      UBUpTo q m dp s e →
      Corr q m dp tr s →
      TBUpTo q m dp tr s e →
      DPBound q dp s →
      UBUpTo q m (scanInner m s e (hashPre q s e) rest dp tr).1 s q.length ∧
      Corr q m (scanInner m s e (hashPre q s e) rest dp tr).1
        (scanInner m s e (hashPre q s e) rest dp tr).2 s ∧
      TBUpTo q m (scanInner m s e (hashPre q s e) rest dp tr).1
        (scanInner m s e (hashPre q s e) rest dp tr).2 s q.length ∧
      DPBound q (scanInner m s e (hashPre q s e) rest dp tr).1 s := by
  intro rest
  induction rest with
  | nil =>
    intro e dp tr hdrop hse hall hub hcorr htb hbd
    have hLe : q.length ≤ e := List.drop_eq_nil_iff.1 hdrop.symm
    refine ⟨?_, hcorr, ?_, hbd⟩
    · intro e' r h1 h2 h3 hfind
      exact hub e' r h1 (by omega) h3 hfind
    · intro e' r h1 h2 h3 hfind hrev hach
      exact htb e' r h1 (by omega) h3 hfind hrev hach
  | cons c rest ih =>
    intro e dp tr hdrop hse hall hub hcorr htb hbd
    obtain ⟨he, hc, hrest⟩ := drop_cons_facts hdrop.symm
    have hstep : (hashPre q s e * 5 + dna_to_num c) % MOD = hashSub q s e :=
      hash_inner_step hse he hc
    cases hf : mapFind m ((hashPre q s e * 5 + dna_to_num c) % MOD) with
    | none =>
      rw [scanInner_cons_none hf]
      rw [hstep] at hf
      have hub' : UBUpTo q m dp s (e + 1) := by
        intro e' r h1 h2 h3 hfind
        rcases Nat.lt_or_ge e' e with h | h
        · exact hub e' r h1 h h3 hfind
        · have he' : e' = e := by omega
          subst he'
          rw [hf] at hfind
          exact absurd hfind (by simp)
      have htb' : TBUpTo q m dp tr s (e + 1) := by
        intro e' r h1 h2 h3 hfind hrev hach
        rcases Nat.lt_or_ge e' e with h | h
        · exact htb e' r h1 h h3 hfind hrev hach
        · have he' : e' = e := by omega
          subst he'
          rw [hf] at hfind
          exact absurd hfind (by simp)
      have := ih (e + 1) dp tr hrest (by omega) hall hub' hcorr htb' hbd
      rw [hstep, hashSub_eq_hashPre_succ]
      exact this
    | some r =>
      rw [scanInner_cons_some hf]
      rw [hstep] at hf
      rcases hall (e + 1) (by omega) with hsent | hsmall
      · -- dp (e+1) is the sentinel: the candidate can never be accepted
        have hnc : (dp (e + 1) + 1) % UINT64 = SENTINEL + 1 := by
          rw [hsent]
          exact mod_uint64_id (le_refl _)
        have hdps : dp s ≤ SENTINEL := dpbound_le_sentinel hL hbd
        have hcond : ¬ ((dp (e + 1) + 1) % UINT64 < dp s ∨
            ((dp (e + 1) + 1) % UINT64 = dp s ∧ r.reverse = false)) := by
          rw [hnc]
          rintro (h | ⟨h, _⟩) <;> omega
        rw [if_neg hcond]
        have hub' : UBUpTo q m dp s (e + 1) := by
          intro e' r' h1 h2 h3 hfind
          rcases Nat.lt_or_ge e' e with h | h
          · exact hub e' r' h1 h h3 hfind
          · have he' : e' = e := by omega
            subst he'
            rw [hsent]
            omega
        have htb' : TBUpTo q m dp tr s (e + 1) := by
          intro e' r' h1 h2 h3 hfind hrev hach
          rcases Nat.lt_or_ge e' e with h | h
          · exact htb e' r' h1 h h3 hfind hrev hach
          · have he' : e' = e := by omega
            subst he'
            exfalso
            rw [hsent] at hach
            omega
        have := ih (e + 1) dp tr hrest (by omega) hall hub' hcorr htb' hbd
        rw [hstep, hashSub_eq_hashPre_succ]
        exact this
      · -- dp (e+1) is a real cost
        have hLS : q.length < SENTINEL := by
          rw [SENTINEL_eq]
          rw [UINT64_eq] at hL
          omega
        have hncid : (dp (e + 1) + 1) % UINT64 = dp (e + 1) + 1 :=
          mod_uint64_id (by omega)
        by_cases hcond : (dp (e + 1) + 1) % UINT64 < dp s ∨
            ((dp (e + 1) + 1) % UINT64 = dp s ∧ r.reverse = false)
        · -- accepted update
          rw [if_pos hcond]
          rw [hncid] at hcond ⊢
          have hncle : dp (e + 1) + 1 ≤ dp s := by
            rcases hcond with h | ⟨h, _⟩ <;> omega
          have hall' : ∀ j, s < j → DPBound q (setF dp s (dp (e + 1) + 1)) j := by
            intro j hj
            have hji : setF dp s (dp (e + 1) + 1) j = dp j := setF_other dp _ (by omega)
            unfold DPBound
            rw [hji]
            exact hall j hj
          have hdpe1 : setF dp s (dp (e + 1) + 1) (e + 1) = dp (e + 1) :=
            setF_other dp _ (by omega)
          have hdps' : setF dp s (dp (e + 1) + 1) s = dp (e + 1) + 1 := setF_same dp s _
          have hub' : UBUpTo q m (setF dp s (dp (e + 1) + 1)) s (e + 1) := by
            intro e' r' h1 h2 h3 hfind
            have he1 : setF dp s (dp (e + 1) + 1) (e' + 1) = dp (e' + 1) :=
              setF_other dp _ (by omega)
            rw [he1, hdps']
            rcases Nat.lt_or_ge e' e with h | h
            · have := hub e' r' h1 h h3 hfind
              omega
            · have he' : e' = e := by omega
              subst he'
              omega
          have hcorr' : Corr q m (setF dp s (dp (e + 1) + 1))
              (setF tr s (some ⟨r, e + 1, s, e⟩)) s := by
            refine Or.inr ⟨⟨r, e + 1, s, e⟩, setF_same tr s _, rfl, hse, he, rfl, ?_, ?_, ?_, ?_⟩
            · exact hf
            · rw [hdps']
              show dp (e + 1) + 1 = setF dp s (dp (e + 1) + 1) (e + 1) + 1
              rw [hdpe1]
            · show setF dp s (dp (e + 1) + 1) (e + 1) ≤ q.length - (e + 1)
              rw [hdpe1]
              exact hsmall
            · rw [hdps']
              omega
          have htb' : TBUpTo q m (setF dp s (dp (e + 1) + 1))
              (setF tr s (some ⟨r, e + 1, s, e⟩)) s (e + 1) := by
            intro e' r' h1 h2 h3 hfind hrev hach
            have he1 : setF dp s (dp (e + 1) + 1) (e' + 1) = dp (e' + 1) :=
              setF_other dp _ (by omega)
            rw [he1, hdps'] at hach
            rcases Nat.lt_or_ge e' e with h | h
            · -- an earlier candidate ties the new cost: only possible in the equal case
              have hub_e' := hub e' r' h1 h h3 hfind
              rcases hcond with hstrict | ⟨heq, hrf⟩
              · exfalso
                omega
              · exact ⟨⟨r, e + 1, s, e⟩, setF_same tr s _, hrf, by show e' ≤ e; omega⟩
            · have he' : e' = e := by omega
              subst he'
              rw [hf] at hfind
              have hr : r' = r := by injection hfind with h; exact h.symm
              subst hr
              exact ⟨⟨r', e' + 1, s, e'⟩, setF_same tr s _, hrev, le_refl e'⟩
          have hbd' : DPBound q (setF dp s (dp (e + 1) + 1)) s := by
            unfold DPBound
            rw [hdps']
            right
            omega
          have := ih (e + 1) (setF dp s (dp (e + 1) + 1))
            (setF tr s (some ⟨r, e + 1, s, e⟩)) hrest (by omega) hall' hub' hcorr' htb' hbd'
          rw [hstep, hashSub_eq_hashPre_succ]
          exact this
        · -- rejected candidate
          rw [if_neg hcond]
          rw [hncid] at hcond
          push_neg at hcond
          obtain ⟨hclt, hceq⟩ := hcond
          have hub' : UBUpTo q m dp s (e + 1) := by
            intro e' r' h1 h2 h3 hfind
            rcases Nat.lt_or_ge e' e with h | h
            · exact hub e' r' h1 h h3 hfind
            · have he' : e' = e := by omega
              subst he'
              omega
          have htb' : TBUpTo q m dp tr s (e + 1) := by
            intro e' r' h1 h2 h3 hfind hrev hach
            rcases Nat.lt_or_ge e' e with h | h
            · exact htb e' r' h1 h h3 hfind hrev hach
            · have he' : e' = e := by omega
              subst he'
              rw [hf] at hfind
              have hr : r' = r := by injection hfind with h; exact h.symm
              subst hr
              exact absurd hrev (hceq hach)
          have := ih (e + 1) dp tr hrest (by omega) hall hub' hcorr htb' hbd
          rw [hstep, hashSub_eq_hashPre_succ]
          exact this

theorem PlannedAt_congr {q : List Base} {m : HashIndex} {dp dp' : Nat → Nat}
    {tr tr' : Nat → Option Trace} {j : Nat}
    (hdp : ∀ i, j ≤ i → dp' i = dp i) (htr : tr' j = tr j)
    (h : PlannedAt q m dp tr j) : PlannedAt q m dp' tr' j := by
  obtain ⟨hub, hcorr, htb, hbd⟩ := h
  refine ⟨?_, ?_, ?_, ?_⟩
  · intro e r h1 h2 h3 hfind
    rw [hdp j (le_refl j), hdp (e + 1) (by omega)]
    exact hub e r h1 h2 h3 hfind
  · rcases hcorr with ⟨h1, h2⟩ | ⟨t, h1, h2, h3, h4, h5, h6, h7, h8, h9⟩
    · exact Or.inl ⟨by rw [hdp j (le_refl j)]; exact h1, by rw [htr]; exact h2⟩
    · refine Or.inr ⟨t, by rw [htr]; exact h1, h2, h3, h4, h5, h6, ?_, ?_, ?_⟩
      · rw [hdp j (le_refl j), hdp t.next (by omega)]
        exact h7
      · rw [hdp t.next (by omega)]
        exact h8
      · rw [hdp j (le_refl j)]
        exact h9
  · intro e r h1 h2 h3 hfind hrev hach
    rw [hdp (e + 1) (by omega), hdp j (le_refl j)] at hach
    obtain ⟨t, ht1, ht2, ht3⟩ := htb e r h1 h2 h3 hfind hrev hach
    exact ⟨t, by rw [htr]; exact ht1, ht2, ht3⟩
  · unfold DPBound at *
    rw [hdp j (le_refl j)]
    exact hbd

theorem planOuter_master (q : List Base) (m : HashIndex) (hL : q.length + 22 < UINT64) :
    ∀ (k : Nat) (dp : Nat → Nat) (tr : Nat → Option Trace),
      k ≤ q.length →
      (∀ j, k ≤ j → j < q.length → PlannedAt q m dp tr j) →
      (∀ j, j < k → dp j = SENTINEL ∧ tr j = none) →
      (∀ j, q.length ≤ j → dp j = dpInit q.length j ∧ tr j = none) →
      (∀ j, j < q.length →
        PlannedAt q m (planOuter q m k (dp, tr)).1 (planOuter q m k (dp, tr)).2 j) ∧
      (∀ j, k ≤ j →
        (planOuter q m k (dp, tr)).1 j = dp j ∧ (planOuter q m k (dp, tr)).2 j = tr j) := by
  intro k
  induction k with
  | zero =>
    intro dp tr hk hdone hvirgin hhigh
    exact ⟨fun j hj => hdone j (Nat.zero_le j) hj, fun j hj => ⟨rfl, rfl⟩⟩
  | succ k ih =>
    intro dp tr hk hdone hvirgin hhigh
    have hkL : k < q.length := by omega
    have hall : ∀ j, k < j → DPBound q dp j := by
      intro j hj
      rcases Nat.lt_or_ge j q.length with hjL | hjL
      · exact (hdone j (by omega) hjL).2.2.2
      · by_cases hje : j = q.length
        · right
          rw [(hhigh j hjL).1, hje]
          simp [dpInit]
        · left
          rw [(hhigh j hjL).1]
          simp [dpInit, hje]
    have hvk := hvirgin k (by omega)
    have hscan := scanInner_master q m k hL (q.drop k) k dp tr rfl (le_refl k) hall
      (fun e r h1 h2 _ _ => absurd h2 (by omega))
      (Or.inl hvk)
      (fun e r h1 h2 _ _ _ _ => absurd h2 (by omega))
      (Or.inl hvk.1)
    rw [hashPre_self] at hscan
    obtain ⟨hu, hc, ht, hb⟩ := hscan
    have houts : ∀ j, j ≠ k →
        (scanInner m k k 0 (q.drop k) dp tr).1 j = dp j ∧
        (scanInner m k k 0 (q.drop k) dp tr).2 j = tr j :=
      fun j hj => scanInner_outside (m := m) (s := k) (q.drop k) k 0 dp tr j hj
    have hdone' : ∀ j, k ≤ j → j < q.length →
        PlannedAt q m (scanInner m k k 0 (q.drop k) dp tr).1
          (scanInner m k k 0 (q.drop k) dp tr).2 j := by
      intro j hj hjL
      by_cases hje : j = k
      · subst hje
        exact ⟨hu, hc, ht, hb⟩
      · exact PlannedAt_congr
          (fun i hi => (houts i (by omega)).1)
          (houts j hje).2
          (hdone j (by omega) hjL)
    have hvirgin' : ∀ j, j < k →
        (scanInner m k k 0 (q.drop k) dp tr).1 j = SENTINEL ∧
        (scanInner m k k 0 (q.drop k) dp tr).2 j = none := by
      intro j hj
      have ho := houts j (by omega)
      rw [ho.1, ho.2]
      exact hvirgin j (by omega)
    have hhigh' : ∀ j, q.length ≤ j →
        (scanInner m k k 0 (q.drop k) dp tr).1 j = dpInit q.length j ∧
        (scanInner m k k 0 (q.drop k) dp tr).2 j = none := by
      intro j hj
      have ho := houts j (by omega)
      rw [ho.1, ho.2]
      exact hhigh j hj
    obtain ⟨P1, P2⟩ := ih (scanInner m k k 0 (q.drop k) dp tr).1
      (scanInner m k k 0 (q.drop k) dp tr).2 (by omega) hdone' hvirgin' hhigh'
    refine ⟨P1, ?_⟩
    intro j hj
    have hp := P2 j (by omega)
    have ho := houts j (by omega)
    exact ⟨hp.1.trans ho.1, hp.2.trans ho.2⟩

theorem plan_final (q : List Base) (m : HashIndex) (hL : q.length + 22 < UINT64) :
    (∀ j, j < q.length →
      PlannedAt q m (find_optimal_path_full q m).1 (find_optimal_path_full q m).2 j) ∧
    (find_optimal_path_full q m).1 q.length = 0 ∧
    (∀ j, q.length ≤ j → (find_optimal_path_full q m).2 j = none) ∧
    (∀ j, DPBound q (find_optimal_path_full q m).1 j) := by
  have hinit := planOuter_master q m hL q.length (dpInit q.length) (fun _ => none)
    (le_refl _)
    (fun j h1 h2 => absurd h1 (by omega))
    (fun j hj => ⟨by simp [dpInit]; omega, rfl⟩)
    (fun j hj => ⟨rfl, rfl⟩)
  obtain ⟨P1, P2⟩ := hinit
  rw [show find_optimal_path_full q m =
    planOuter q m q.length (dpInit q.length, fun _ => none) from rfl]
  refine ⟨P1, ?_, ?_, ?_⟩
  · have := (P2 q.length (le_refl _)).1
    rw [this]
    simp [dpInit]
  · intro j hj
    exact (P2 j hj).2
  · intro j
    rcases Nat.lt_or_ge j q.length with hjL | hjL
    · exact (P1 j hjL).2.2.2
    · have := (P2 j hjL).1
      by_cases hje : j = q.length
      · right
        rw [this, hje]
        simp [dpInit]
      · left
        rw [this]
        simp [dpInit, hje]

/-! ## Path reconstruction lemmas -/

theorem reconstructGo_succ (tr : Nat → Option Trace) (len fuel pos : Nat) :
    reconstructGo tr len (fuel + 1) pos =
      if pos < len then
        match tr pos with
        | none => .breakAt pos
        | some t =>
          match reconstructGo tr len fuel t.next with
          | .ok segs => .ok (⟨t.ref_seq, t.query_start, t.query_end⟩ :: segs)
          | r => r
      else .ok [] := rfl

theorem Chained_le : ∀ (l : List MatchSegment) (p u : Nat), Chained p u l → p ≤ u := by
  intro l
  induction l with
  | nil => intro p u h; exact le_of_eq h
  | cons sg rest ih =>
    intro p u h
    obtain ⟨h1, h2, h3⟩ := h
    have := ih _ _ h3
    omega

theorem Chained_start_le : ∀ (l : List MatchSegment) (p u : Nat), Chained p u l →
    ∀ sg ∈ l, p ≤ sg.query_start := by
  intro l
  induction l with
  | nil => intro p u _ sg h; exact absurd h (List.not_mem_nil sg)
  | cons sg0 rest ih =>
    intro p u h sg hmem
    obtain ⟨h1, h2, h3⟩ := h
    rcases List.mem_cons.1 hmem with rfl | hmem'
    · omega
    · have := ih _ _ h3 sg hmem'
      omega

theorem Chained_chain' : ∀ (l : List MatchSegment) (p u : Nat), Chained p u l →
    List.Chain' (fun a b => a.query_end + 1 = b.query_start) l := by
  intro l
  induction l with
  | nil => intro p u _; exact List.chain'_nil
  | cons sg0 rest ih =>
    intro p u h
    obtain ⟨h1, h2, h3⟩ := h
    cases rest with
    | nil => simp
    | cons sg1 rest' =>
      rw [List.chain'_cons]
      obtain ⟨h4, h5, h6⟩ := h3
      exact ⟨h4.symm, ih _ _ ⟨h4, h5, h6⟩⟩

theorem Chained_pairwise : ∀ (l : List MatchSegment) (p u : Nat), Chained p u l →
    List.Pairwise (fun a b => a.query_start < b.query_start) l := by
  intro l
  induction l with
  | nil => intro p u _; exact List.Pairwise.nil
  | cons sg0 rest ih =>
    intro p u h
    obtain ⟨h1, h2, h3⟩ := h
    refine List.Pairwise.cons ?_ (ih _ _ h3)
    intro sg hmem
    have := Chained_start_le rest _ _ h3 sg hmem
    omega

theorem Chained_union : ∀ (l : List MatchSegment) (p u : Nat), Chained p u l →
    ∀ j, (p ≤ j ∧ j < u) ↔ ∃ sg ∈ l, sg.query_start ≤ j ∧ j ≤ sg.query_end := by
  intro l
  induction l with
  | nil =>
    intro p u h j
    constructor
    · intro ⟨h1, h2⟩
      exfalso
      have : p = u := h
      omega
    · rintro ⟨sg, hmem, _⟩
      exact absurd hmem (List.not_mem_nil sg)
  | cons sg0 rest ih =>
    intro p u h j
    obtain ⟨h1, h2, h3⟩ := h
    have hle := Chained_le rest _ _ h3
    constructor
    · intro ⟨hp, hu⟩
      rcases le_or_lt j sg0.query_end with hj | hj
      · exact ⟨sg0, List.mem_cons_self _ _, by omega, hj⟩
      · have := (ih _ _ h3 j).1 ⟨by omega, hu⟩
        obtain ⟨sg, hmem, hsg⟩ := this
        exact ⟨sg, List.mem_cons_of_mem _ hmem, hsg⟩
    · rintro ⟨sg, hmem, hs1, hs2⟩
      rcases List.mem_cons.1 hmem with rfl | hmem'
      · omega
      · have := (ih _ _ h3 j).2 ⟨sg, hmem', hs1, hs2⟩
        omega

theorem reconstructGo_ok (q : List Base) (m : HashIndex) (hL : q.length + 22 < UINT64) :
    ∀ (fuel pos : Nat), pos ≤ q.length → q.length + 1 - pos ≤ fuel →
      (find_optimal_path_full q m).1 pos ≤ q.length - pos →
      ∃ segs,
        reconstructGo (find_optimal_path_full q m).2 q.length fuel pos = .ok segs ∧
        segs.length = (find_optimal_path_full q m).1 pos ∧
        Chained pos q.length segs := by
  intro fuel
  induction fuel with
  | zero => intro pos h1 h2 _; omega
  | succ fuel ih =>
    intro pos h1 h2 hdp
    rcases Nat.lt_or_ge pos q.length with hpos | hpos
    · -- a decision must exist here
      have hplan := (plan_final q m hL).1 pos hpos
      obtain ⟨_, hcorr, _, _⟩ := hplan
      have hLS : q.length < SENTINEL := by
        rw [SENTINEL_eq]
        rw [UINT64_eq] at hL
        omega
      rcases hcorr with ⟨hsent, _⟩ | ⟨t, ht1, ht2, ht3, ht4, ht5, _, ht7, ht8, _⟩
      · exfalso
        omega
      · have hnext : t.next = t.query_end + 1 := ht5
        have hnle : t.next ≤ q.length := by omega
        obtain ⟨segs', hs1, hs2, hs3⟩ := ih t.next hnle (by omega) ht8
        refine ⟨⟨t.ref_seq, t.query_start, t.query_end⟩ :: segs', ?_, ?_, ?_⟩
        · rw [reconstructGo_succ, if_pos hpos, ht1]
          dsimp only
          rw [hs1]
        · simp only [List.length_cons, hs2]
          omega
        · refine ⟨ht2, ?_, ?_⟩
          · show pos ≤ t.query_end
            omega
          · show Chained (t.query_end + 1) q.length segs'
            rw [← hnext]
            exact hs3
    · have hpe : pos = q.length := by omega
      refine ⟨[], ?_, ?_, hpe⟩
      · rw [reconstructGo_succ, if_neg (by omega)]
      · have h0 : (find_optimal_path_full q m).1 pos = 0 := by omega
        rw [h0]
        rfl

theorem reconstruct_nil_query {q : List Base} (m : HashIndex) (h : q.length = 0) :
    reconstruct_path (find_optimal_path q m) q.length = .ok [] := by
  unfold reconstruct_path
  rw [h]
  rfl

theorem align_ok_main {q : List Base} {m : HashIndex} (hL : q.length + 22 < UINT64)
    {segs : List MatchSegment}
    (hOK : reconstruct_path (find_optimal_path q m) q.length = .ok segs) :
    segs.length = (find_optimal_path_full q m).1 0 ∧ Chained 0 q.length segs ∧
    (find_optimal_path_full q m).1 0 ≤ q.length := by
  have hdpL := (plan_final q m hL).2.1
  rcases Nat.eq_zero_or_pos q.length with h0 | hpos
  · rw [reconstruct_nil_query m h0] at hOK
    have hsegs : segs = [] := by
      injection hOK with h
      exact h.symm
    subst hsegs
    rw [h0] at hdpL
    refine ⟨?_, ?_, ?_⟩
    · rw [hdpL]
      rfl
    · rw [h0]
      rfl
    · rw [hdpL]
      exact Nat.zero_le _
  · cases htr0 : (find_optimal_path_full q m).2 0 with
    | none =>
      exfalso
      unfold reconstruct_path at hOK
      have : q.length + 1 = (q.length - 1) + 1 + 1 := by omega
      rw [this, reconstructGo_succ, if_pos hpos] at hOK
      unfold find_optimal_path at hOK
      rw [htr0] at hOK
      exact absurd hOK (by simp)
    | some t =>
      have hplan := (plan_final q m hL).1 0 hpos
      obtain ⟨_, hcorr, _, _⟩ := hplan
      rcases hcorr with ⟨_, htrn⟩ | ⟨t', ht1', _, _, _, _, _, _, _, hdp0⟩
      · rw [htr0] at htrn
        exact absurd htrn (by simp)
      · obtain ⟨segs', h1, h2, h3⟩ := reconstructGo_ok q m hL (q.length + 1) 0
          (Nat.zero_le _) (by omega) (by omega)
        unfold reconstruct_path find_optimal_path at hOK
        rw [h1] at hOK
        have hsegs : segs = segs' := by
          injection hOK with h
          exact h.symm
        subst hsegs
        exact ⟨h2, h3, by omega⟩

theorem align_ok_of_trace0 {q : List Base} {m : HashIndex} (hL : q.length + 22 < UINT64)
    {t : Trace} (htr0 : (find_optimal_path_full q m).2 0 = some t) :
    ∃ segs, reconstruct_path (find_optimal_path q m) q.length = .ok segs := by
  rcases Nat.eq_zero_or_pos q.length with h0 | hpos
  · exact ⟨[], reconstruct_nil_query m h0⟩
  · have hplan := (plan_final q m hL).1 0 hpos
    obtain ⟨_, hcorr, _, _⟩ := hplan
    rcases hcorr with ⟨_, htrn⟩ | ⟨t', ht1', _, _, _, _, _, _, _, hdp0⟩
    · rw [htr0] at htrn
      exact absurd htrn (by simp)
    · obtain ⟨segs', h1, _, _⟩ := reconstructGo_ok q m hL (q.length + 1) 0
        (Nat.zero_le _) (by omega) (by omega)
      exact ⟨segs', h1⟩

theorem align_break_main {q : List Base} {m : HashIndex} (hL : q.length + 22 < UINT64)
    {p : Nat} (hB : reconstruct_path (find_optimal_path q m) q.length = .breakAt p) :
    p = 0 ∧ (find_optimal_path_full q m).2 0 = none ∧ 0 < q.length := by
  rcases Nat.eq_zero_or_pos q.length with h0 | hpos
  · rw [reconstruct_nil_query m h0] at hB
    exact absurd hB (by simp)
  · cases htr0 : (find_optimal_path_full q m).2 0 with
    | none =>
      unfold reconstruct_path at hB
      have hsucc : q.length + 1 = (q.length - 1) + 1 + 1 := by omega
      rw [hsucc, reconstructGo_succ, if_pos hpos] at hB
      unfold find_optimal_path at hB
      rw [htr0] at hB
      have : p = 0 := by
        injection hB with h
        exact h.symm
      exact ⟨this, rfl, hpos⟩
    | some t =>
      exfalso
      obtain ⟨segs, hok⟩ := align_ok_of_trace0 hL htr0
      rw [hok] at hB
      exact absurd hB (by simp)

/-! ## Optimality: the dp table against arbitrary index-hashed chainings -/

theorem covers_of_dp (q : List Base) (m : HashIndex) (hL : q.length + 22 < UINT64) :
    ∀ (fuel s : Nat), q.length - s ≤ fuel → s ≤ q.length →
      (find_optimal_path_full q m).1 s ≤ q.length - s →
      Covers m q s ((find_optimal_path_full q m).1 s) := by
  intro fuel
  induction fuel with
  | zero =>
    intro s h1 h2 hdp
    have hs : s = q.length := by omega
    have h0 : (find_optimal_path_full q m).1 s = 0 := by omega
    rw [h0, hs]
    exact Covers.nil
  | succ fuel ih =>
    intro s h1 h2 hdp
    rcases Nat.lt_or_ge s q.length with hpos | hge
    · have hplan := (plan_final q m hL).1 s hpos
      obtain ⟨_, hcorr, _, _⟩ := hplan
      have hLS : q.length < SENTINEL := by
        rw [SENTINEL_eq]
        rw [UINT64_eq] at hL
        omega
      rcases hcorr with ⟨hsent, _⟩ | ⟨t, ht1, ht2, ht3, ht4, ht5, ht6, ht7, ht8, _⟩
      · exfalso
        omega
      · have hcov := ih t.next (by omega) (by omega) ht8
        rw [ht7]
        exact Covers.cons ht3 ht4 (by rw [ht6]; rfl) (by rw [← ht5]; exact hcov)
    · have hs : s = q.length := by omega
      have h0 : (find_optimal_path_full q m).1 s = 0 := by omega
      rw [h0, hs]
      exact Covers.nil

theorem dp_le_covers (q : List Base) (m : HashIndex) (hL : q.length + 22 < UINT64) :
    ∀ (s k : Nat), Covers m q s k → (find_optimal_path_full q m).1 s ≤ k := by
  intro s k hcov
  induction hcov with
  | nil => exact le_of_eq (plan_final q m hL).2.1
  | cons h1 h2 h3 hcov ih =>
    rename_i s' e' k'
    have hplan := (plan_final q m hL).1 s' (by omega)
    obtain ⟨hub, _, _, _⟩ := hplan
    obtain ⟨r, hr⟩ := Option.isSome_iff_exists.1 h3
    have := hub e' r h1 h2 h2 hr
    omega

/-! ## Claim theorems -/

/-- C5: for every DNA string `s` over {A,T,C,G}, applying `reverse_dna`
twice returns the original string: `reverse_dna (reverse_dna s) = s`. -/
theorem C5_reverse_dna_involutive (s : List Base) : reverse_dna (reverse_dna s) = s := by
  have hcc : complement ∘ complement = id := funext complement_complement
  simp [reverse_dna, List.map_map, hcc]

/-- C9: for reference `"AAAA"` and query `"TTTT"`, alignment succeeds with
exactly one segment covering the whole query on the reverse-complement
strand, spanning reference range `[0,3]` and query range `[0,3]`. -/
theorem C9_reverse_full_segment :
    align [Base.T, Base.T, Base.T, Base.T] (buildIndex [Base.A, Base.A, Base.A, Base.A]) =
      RecResult.ok [⟨⟨0, 3, true⟩, 0, 3⟩] := by
  rfl

/-- C8 counterexample: the core functions do not fail on empty input.
`build_reference_hash` on the empty reference returns the (empty) index
unchanged rather than failing, and aligning the empty query against a
real index succeeds with the empty segment list rather than failing with
`EmptyInput`.  (The emptiness rejection lives in `main`, before the core
is invoked.) -/
theorem C8_counterexample :
    build_reference_hash [] [] false = ([] : HashIndex) ∧
    build_reference_hash [] [] true = ([] : HashIndex) ∧
    align [] (buildIndex [Base.A]) = RecResult.ok [] := by
  exact ⟨rfl, rfl, rfl⟩

/-- C8 amended: the empty-input rejection happens in the `main` driver
before the core is invoked — `run` rejects an empty reference and then an
empty query — while the core functions themselves accept empty input:
`build_reference_hash` of an empty reference returns the input map
unchanged and aligning an empty query yields the empty segment list. -/
theorem C8_amended (ref q : List Base) (m : HashIndex) (rev : Bool) (href : ref ≠ []) :
    run [] q = RunResult.emptyRefError ∧
    run ref [] = RunResult.emptyQueryError ∧
    build_reference_hash [] m rev = m ∧
    align [] m = RecResult.ok [] := by
  refine ⟨rfl, ?_, ?_, rfl⟩
  · unfold run
    rw [if_neg href, if_pos rfl]
  · cases rev <;> rfl

/-- Witness for C8 amended at concrete inputs. -/
theorem C8_amended_witness :
    run [] [Base.A] = RunResult.emptyRefError ∧
    run [Base.A] [] = RunResult.emptyQueryError ∧
    build_reference_hash [] [] false = ([] : HashIndex) ∧
    align [] ([] : HashIndex) = RecResult.ok [] :=
  C8_amended [Base.A] [Base.A] [] false (by decide)

/-- C4: `build_reference_hash` inserts a key only if it is not already
present.  First conjunct: entries present before the pass are never
overwritten (so, composed as in `main`, the forward pass shadows the
reverse pass).  Second conjunct: every new entry is tagged with the
pass's orientation, satisfies `start ≤ end < n`, and on the
reverse-complement pass is translated to original reference coordinates
as `refStart = n - end - 1`, `refEnd = n - start - 1`.  Third conjunct
(first-writer-wins within a pass): for a fresh key `K`, if `(s0, e0)` is
the first substring hashing to `K` in the scan order — no pair with a
smaller start, and no pair with the same start and a smaller end, hashes
to `K` — then the pass retains exactly the location of `(s0, e0)`;
substrings hashing to `K` later in the order cannot displace it. -/
theorem C4_build_insert (dna : List Base) (m : HashIndex) (rev : Bool) :
    (∀ k v, mapFind m k = some v → mapFind (build_reference_hash dna m rev) k = some v) ∧
    (∀ k v, mapFind (build_reference_hash dna m rev) k = some v → mapFind m k = none →
      v.reverse = rev ∧ v.start ≤ v.end_ ∧ v.end_ < dna.length ∧
      ∃ s e, s ≤ e ∧ e < dna.length ∧
        k = hashSub (if rev then reverse_dna dna else dna) s e ∧
        (if rev then v.start = dna.length - e - 1 ∧ v.end_ = dna.length - s - 1
          else v.start = s ∧ v.end_ = e)) ∧
    (∀ K s0 e0, mapFind m K = none → s0 ≤ e0 → e0 < dna.length →
      hashSub (if rev then reverse_dna dna else dna) s0 e0 = K →
      (∀ e, s0 ≤ e → e < e0 → hashSub (if rev then reverse_dna dna else dna) s0 e ≠ K) →
      (∀ s e, s < s0 → s ≤ e → e < dna.length →
        hashSub (if rev then reverse_dna dna else dna) s e ≠ K) →
      mapFind (build_reference_hash dna m rev) K =
        some (refSeqOf dna.length s0 e0 rev)) := by
  have hlen : (if rev then reverse_dna dna else dna).length = dna.length := by
    cases rev <;> simp [reverse_dna_length]
  refine ⟨?_, ?_, ?_⟩
  · intro k v h
    exact build_preserves h
  · intro k v hfind habs
    rcases build_shape hfind with hm | ⟨s, e, h1, h2, h3, h4⟩
    · rw [habs] at hm
      exact absurd hm (by simp)
    · subst h4
      cases rev
      · exact ⟨rfl, h1, h2, s, e, h1, h2, h3, rfl, rfl⟩
      · refine ⟨rfl, ?_, ?_, s, e, h1, h2, h3, rfl, rfl⟩
        · show dna.length - e - 1 ≤ dna.length - s - 1
          omega
        · show dna.length - s - 1 < dna.length
          omega
  · intro K s0 e0 habs hs0e0 he0 hK hrow hprev
    refine build_first_writer _ rfl hs0e0 ?_ hK hrow ?_ habs
    · rw [hlen]
      exact he0
    · intro s hs e hse he
      rw [hlen] at he
      exact hprev s e hs hse he

/-- Witness for C4 at concrete inputs.  First conjunct: the reverse pass
over `"A"` stores hash(`"T"`) = 2 at translated coordinates `[0,0]`,
tagged reverse.  Second conjunct: in the forward pass over `"AA"` both
substrings `[0,0]` and `[1,1]` hash to 1, and the retained location is
that of the scan-order-first pair `(0,0)`, not the later `(1,1)`. -/
theorem C4_witness :
    (∃ s e, s ≤ e ∧ e < [Base.A].length ∧
      (2 : Nat) = hashSub (reverse_dna [Base.A]) s e ∧
      (0 : Nat) = [Base.A].length - e - 1 ∧ (0 : Nat) = [Base.A].length - s - 1) ∧
    mapFind (build_reference_hash [Base.A, Base.A] [] false) (dna_to_num Base.A) =
      some ⟨0, 0, false⟩ := by
  constructor
  · have h := (C4_build_insert [Base.A] [] true).2.1 2 ⟨0, 0, true⟩ rfl rfl
    obtain ⟨-, -, -, s, e, h1, h2, h3, h4, h5⟩ := h
    exact ⟨s, e, h1, h2, h3, h4, h5⟩
  · exact (C4_build_insert [Base.A, Base.A] [] false).2.2 (dna_to_num Base.A) 0 0
      rfl (le_refl 0) (by decide) (by decide)
      (fun e _ he2 => absurd he2 (Nat.not_lt_zero e))
      (fun s e hs _ _ => absurd hs (Nat.not_lt_zero s))

/-- C6 counterexample: for the 30-symbol reference `cex6`
(`TACTTGATAAAGTGGTGAAAAAAAAATCGT`), the symbol `C` occurs in the
reference, but the index entry at hash(`"C"`) = 3 is the colliding
full-reference substring `[0, 29]` (inserted first in scan order), not
the location of a length-1 occurrence of `C`. -/
theorem C6_counterexample :
    Base.C ∈ cex6 ∧
    mapFind (buildIndex cex6) (dna_to_num Base.C) = some ⟨0, 29, false⟩ ∧
    (⟨0, 29, false⟩ : RefSeq).start ≠ (⟨0, 29, false⟩ : RefSeq).end_ := by
  refine ⟨by decide, ?_, by decide⟩
  have hfwd : mapFind (build_reference_hash cex6 [] false) (dna_to_num Base.C) =
      some (refSeqOf cex6.length 0 29 false) := by
    refine build_first_writer cex6 rfl (by omega) (by decide) (by decide) ?_ ?_ rfl
    · intro e h1 h2
      revert e
      decide
    · intro s hs
      omega
  have hlen : refSeqOf cex6.length 0 29 false = ⟨0, 29, false⟩ := by decide
  rw [hlen] at hfwd
  exact build_preserves hfwd

/-- C6 amended: for every reference and every symbol occurring in it,
the symbol's rolling hash is always a key of the built index (base-level
coverage); moreover when the reference has length at most 18 — so that
the rolling hash is collision-free — the key maps to the location of a
length-1 occurrence of that symbol (its first occurrence, forward
strand).  For longer references a colliding earlier substring may shadow
the length-1 location (see the counterexample). -/
theorem C6_amended (r : List Base) (c : Base) (hc : c ∈ r) :
    (mapFind (buildIndex r) (dna_to_num c)).isSome = true ∧
    (r.length ≤ 18 → ∃ p, p < r.length ∧ r[p]? = some c ∧
      mapFind (buildIndex r) (dna_to_num c) = some ⟨p, p, false⟩) := by
  constructor
  · obtain ⟨v, hv⟩ := buildIndex_single_present hc
    rw [hv]
    rfl
  · intro hlen
    obtain ⟨n, hn, heq⟩ := List.getElem_of_mem hc
    have hex : ∃ p, r[p]? = some c := ⟨n, by rw [List.getElem?_eq_getElem hn, heq]⟩
    refine ⟨Nat.find hex, ?_, Nat.find_spec hex, ?_⟩
    · by_contra hge
      have : r[Nat.find hex]? = none := List.getElem?_eq_none (by omega)
      rw [Nat.find_spec hex] at this
      exact absurd this (by simp)
    · have hplt : Nat.find hex < r.length := by
        by_contra hge
        have : r[Nat.find hex]? = none := List.getElem?_eq_none (by omega)
        rw [Nat.find_spec hex] at this
        exact absurd this (by simp)
      have hval : r[Nat.find hex] = c := by
        have := Nat.find_spec hex
        rw [List.getElem?_eq_getElem hplt] at this
        injection this
      refine buildIndex_single_short hlen hplt hval ?_
      intro j hj
      exact Nat.find_min hex hj

/-- Witness for C6 amended at a concrete input. -/
theorem C6_amended_witness :
    (mapFind (buildIndex [Base.A]) (dna_to_num Base.A)).isSome = true ∧
    ([Base.A].length ≤ 18 → ∃ p, p < [Base.A].length ∧ [Base.A][p]? = some Base.A ∧
      mapFind (buildIndex [Base.A]) (dna_to_num Base.A) = some ⟨p, p, false⟩) :=
  C6_amended [Base.A] Base.A (by decide)

/-- C7 counterexample: for reference `"A"` and query `"AC"`, the symbol
`C` at query position 1 is absent from the reference under both
orientations, yet the alignment failure carries position 0 (the
reconstructor always fails at the start of the query), not position 1 as
the claim states. -/
theorem C7_counterexample :
    Base.C ∉ [Base.A] ∧ complement Base.C ∉ [Base.A] ∧
    [Base.A, Base.C][1]? = some Base.C ∧
    align [Base.A, Base.C] (buildIndex [Base.A]) = RecResult.breakAt 0 ∧
    align [Base.A, Base.C] (buildIndex [Base.A]) ≠ RecResult.breakAt 1 := by
  exact ⟨by decide, by decide, by decide, by rfl, by decide⟩

/-- C7 amended: if the query contains a symbol absent from the reference
under both orientations (and both strings are short enough — at most 18
symbols — that the rolling hash is collision-free), alignment fails with
`AlignmentBreak`, but the carried position is always 0: the reconstructor
starts at query position 0 and no reachable prefix position can hold a
decision, so the break is reported at the start of the query rather than
at the offending symbol's position. -/
theorem C7_amended (ref q : List Base) (p : Nat) (c : Base)
    (hr : ref.length ≤ 18) (hq : q.length ≤ 18)
    (hp : q[p]? = some c) (hc1 : c ∉ ref) (hc2 : complement c ∉ ref) :
    align q (buildIndex ref) = RecResult.breakAt 0 := by
  have hL : q.length + 22 < UINT64 := by
    rw [UINT64_eq]
    omega
  have hLS : q.length < SENTINEL := by
    rw [SENTINEL_eq]
    omega
  have hplen : p < q.length := by
    by_contra hge
    have : q[p]? = none := List.getElem?_eq_none (by omega)
    rw [hp] at this
    exact absurd this (by simp)
  have hpc : q[p] = c := by
    rw [List.getElem?_eq_getElem hplen] at hp
    injection hp
  have hkey : ∀ s e, s ≤ p → p ≤ e → e < q.length →
      mapFind (buildIndex ref) (hashSub q s e) = none := by
    intro s e hsp hpe heL
    cases hres : mapFind (buildIndex ref) (hashSub q s e) with
    | none => rfl
    | some v =>
      exfalso
      have hres' : mapFind (build_reference_hash ref (build_reference_hash ref [] false) true)
          (hashSub q s e) = some v := hres
      have hse : s ≤ e := le_trans hsp hpe
      have hmem : c ∈ subSeg q s e := by
        rw [← hpc]
        exact mem_subSeg hsp hpe hplen
      have hlq : (subSeg q s e).length ≤ 18 := by
        rw [subSeg_length hse heL]
        omega
      rcases build_shape hres' with hfwd | ⟨s', e', h1, h2, h3, _⟩
      · rcases build_shape hfwd with hnil | ⟨s', e', h1, h2, h3, _⟩
        · exact absurd hnil (by simp [mapFind])
        · have h3' : hashSub q s e = hashSub ref s' e' := by simpa using h3
          have hlr : (subSeg ref s' e').length ≤ 18 := by
            rw [subSeg_length h1 h2]
            omega
          have heq := hashDNA_injective_short hlq hlr h3'
          rw [heq] at hmem
          exact hc1 (subSeg_subset hmem)
      · have h3' : hashSub q s e = hashSub (reverse_dna ref) s' e' := by simpa using h3
        have hlr : (subSeg (reverse_dna ref) s' e').length ≤ 18 := by
          rw [subSeg_length h1 (by rw [reverse_dna_length]; exact h2)]
          omega
        have heq := hashDNA_injective_short hlq hlr h3'
        rw [heq] at hmem
        exact hc2 (mem_reverse_dna.1 (subSeg_subset hmem))
  have hdp : ∀ fuel i, i ≤ p → p - i ≤ fuel →
      (find_optimal_path_full q (buildIndex ref)).1 i = SENTINEL := by
    intro fuel
    induction fuel with
    | zero =>
      intro i hip hfuel
      by_contra hne
      obtain ⟨_, hcorr, _, _⟩ := (plan_final q (buildIndex ref) hL).1 i (by omega)
      rcases hcorr with ⟨hs, _⟩ | ⟨t, ht1, ht2, ht3, ht4, ht5, ht6, ht7, ht8, _⟩
      · exact hne hs
      · have hqe : p ≤ t.query_end := by omega
        rw [hkey i t.query_end hip hqe ht4] at ht6
        exact absurd ht6 (by simp)
    | succ fuel ih =>
      intro i hip hfuel
      by_contra hne
      obtain ⟨_, hcorr, _, _⟩ := (plan_final q (buildIndex ref) hL).1 i (by omega)
      rcases hcorr with ⟨hs, _⟩ | ⟨t, ht1, ht2, ht3, ht4, ht5, ht6, ht7, ht8, _⟩
      · exact hne hs
      · rcases Nat.lt_or_ge t.query_end p with hqe | hqe
        · have hsent := ih t.next (by omega) (by omega)
          rw [hsent] at ht8
          omega
        · rw [hkey i t.query_end hip hqe ht4] at ht6
          exact absurd ht6 (by simp)
  have hdp0 := hdp p 0 (Nat.zero_le p) (by omega)
  have htr0 : (find_optimal_path_full q (buildIndex ref)).2 0 = none := by
    obtain ⟨_, hcorr, _, _⟩ := (plan_final q (buildIndex ref) hL).1 0 (by omega)
    rcases hcorr with ⟨_, htn⟩ | ⟨t, ht1, _, _, _, _, _, ht7, ht8, _⟩
    · exact htn
    · exfalso
      omega
  show reconstruct_path (find_optimal_path q (buildIndex ref)) q.length = RecResult.breakAt 0
  unfold reconstruct_path
  have hsucc : q.length + 1 = (q.length - 1) + 1 + 1 := by omega
  rw [hsucc, reconstructGo_succ, if_pos (by omega : 0 < q.length)]
  unfold find_optimal_path
  rw [htr0]

/-- Witness for C7 amended at reference `"A"`, query `"AC"`. -/
theorem C7_amended_witness :
    align [Base.A, Base.C] (buildIndex [Base.A]) = RecResult.breakAt 0 :=
  C7_amended [Base.A] [Base.A, Base.C] 1 Base.C (by decide) (by decide) (by decide)
    (by decide) (by decide)

/-- C1: whenever alignment succeeds, the returned segment count is the
minimum over all chainings of index-hashed segments that partition the
query: the returned count is itself achievable as such a chaining, and no
chaining does better. -/
theorem C1_minimal_segments (ref q : List Base) (segs : List MatchSegment)
    (hL : q.length + 22 < UINT64)
    (hOK : align q (buildIndex ref) = RecResult.ok segs) :
    Covers (buildIndex ref) q 0 segs.length ∧
    ∀ k, Covers (buildIndex ref) q 0 k → segs.length ≤ k := by
  have hOK' : reconstruct_path (find_optimal_path q (buildIndex ref)) q.length =
      RecResult.ok segs := hOK
  obtain ⟨hlen, _, hdp0⟩ := align_ok_main hL hOK'
  constructor
  · rw [hlen]
    exact covers_of_dp q (buildIndex ref) hL q.length 0 (by omega) (Nat.zero_le _)
      (by omega)
  · intro k hk
    have := dp_le_covers q (buildIndex ref) hL 0 k hk
    omega

/-- Witness for C1: reference `"ATCG"`, query `"AT"` aligns to one
segment, and one segment is optimal. -/
theorem C1_witness :
    Covers (buildIndex [Base.A, Base.T, Base.C, Base.G]) [Base.A, Base.T] 0 1 ∧
    ∀ k, Covers (buildIndex [Base.A, Base.T, Base.C, Base.G]) [Base.A, Base.T] 0 k →
      1 ≤ k :=
  C1_minimal_segments [Base.A, Base.T, Base.C, Base.G] [Base.A, Base.T]
    [⟨⟨0, 1, false⟩, 0, 1⟩] (by norm_num [UINT64]) (by rfl)

/-- C2: whenever `reconstruct_path` returns, the segments are contiguous
(`query_end + 1` of one is `query_start` of the next), listed in strictly
ascending query order, their query ranges union to exactly
`[0, query_len)`, and the segment count equals `dp[0]` as computed by
`find_optimal_path`. -/
theorem C2_segments_invariants (q : List Base) (m : HashIndex) (segs : List MatchSegment)
    (hL : q.length + 22 < UINT64)
    (hOK : reconstruct_path (find_optimal_path q m) q.length = RecResult.ok segs) :
    List.Chain' (fun a b => a.query_end + 1 = b.query_start) segs ∧
    List.Pairwise (fun a b => a.query_start < b.query_start) segs ∧
    (∀ j, j < q.length ↔ ∃ sg ∈ segs, sg.query_start ≤ j ∧ j ≤ sg.query_end) ∧
    segs.length = (find_optimal_path_full q m).1 0 := by
  obtain ⟨hlen, hch, _⟩ := align_ok_main hL hOK
  refine ⟨Chained_chain' segs 0 q.length hch, Chained_pairwise segs 0 q.length hch,
    ?_, hlen⟩
  intro j
  have hiff := Chained_union segs 0 q.length hch j
  constructor
  · intro hj
    exact hiff.1 ⟨Nat.zero_le j, hj⟩
  · intro h
    exact (hiff.2 h).2

/-- Witness for C2 at reference `"ATCG"`, query `"AT"`. -/
theorem C2_witness :
    List.Chain' (fun a b => a.query_end + 1 = b.query_start)
      [(⟨⟨0, 1, false⟩, 0, 1⟩ : MatchSegment)] ∧
    List.Pairwise (fun a b => a.query_start < b.query_start)
      [(⟨⟨0, 1, false⟩, 0, 1⟩ : MatchSegment)] ∧
    (∀ j, j < [Base.A, Base.T].length ↔
      ∃ sg ∈ [(⟨⟨0, 1, false⟩, 0, 1⟩ : MatchSegment)],
        sg.query_start ≤ j ∧ j ≤ sg.query_end) ∧
    [(⟨⟨0, 1, false⟩, 0, 1⟩ : MatchSegment)].length =
      (find_optimal_path_full [Base.A, Base.T]
        (buildIndex [Base.A, Base.T, Base.C, Base.G])).1 0 :=
  C2_segments_invariants [Base.A, Base.T] (buildIndex [Base.A, Base.T, Base.C, Base.G])
    [⟨⟨0, 1, false⟩, 0, 1⟩] (by norm_num [UINT64]) (by rfl)

/-- C3: at any query start position, if some forward-strand candidate
achieves the final optimal cost `dp[start]`, then the retained decision
is a forward-strand candidate extending at least as far (so it is the
forward candidate with the largest end index), and in particular a
forward-strand candidate of equal cost is always retained in preference
to any reverse-complement candidate. -/
theorem C3_tiebreak (q : List Base) (m : HashIndex) (s e : Nat) (r : RefSeq)
    (hL : q.length + 22 < UINT64) (hse : s ≤ e) (heL : e < q.length)
    (hfind : mapFind m (hashSub q s e) = some r) (hfwd : r.reverse = false)
    (hach : (find_optimal_path_full q m).1 (e + 1) + 1 =
      (find_optimal_path_full q m).1 s) :
    ∃ t, find_optimal_path q m s = some t ∧
      t.ref_seq.reverse = false ∧ e ≤ t.query_end ∧
      t.query_start = s ∧ t.next = t.query_end + 1 ∧ t.query_end < q.length ∧
      mapFind m (hashSub q s t.query_end) = some t.ref_seq ∧
      (find_optimal_path_full q m).1 (t.query_end + 1) + 1 =
        (find_optimal_path_full q m).1 s := by
  have hsL : s < q.length := by omega
  obtain ⟨hub, hcorr, htb, hbd⟩ := (plan_final q m hL).1 s hsL
  obtain ⟨t, ht1, ht2, ht3⟩ := htb e r hse heL heL hfind hfwd hach
  rcases hcorr with ⟨_, htrn⟩ | ⟨t', hc1, hc2, hc3, hc4, hc5, hc6, hc7, hc8, hc9⟩
  · rw [ht1] at htrn
    exact absurd htrn (by simp)
  · have htt : t' = t := by
      rw [ht1] at hc1
      injection hc1 with h
      exact h.symm
    subst htt
    refine ⟨t', ht1, ht2, ht3, hc2, hc5, hc4, hc6, ?_⟩
    rw [← hc5, ← hc7]

/-- Witness for C3: reference `"A"`, query `"AA"`, forward candidate at
start 0 ending at 0 achieving the optimal cost. -/
theorem C3_witness :
    ∃ t, find_optimal_path [Base.A, Base.A] (buildIndex [Base.A]) 0 = some t ∧
      t.ref_seq.reverse = false ∧ 0 ≤ t.query_end ∧
      t.query_start = 0 ∧ t.next = t.query_end + 1 ∧
      t.query_end < [Base.A, Base.A].length ∧
      mapFind (buildIndex [Base.A])
        (hashSub [Base.A, Base.A] 0 t.query_end) = some t.ref_seq ∧
      (find_optimal_path_full [Base.A, Base.A] (buildIndex [Base.A])).1 (t.query_end + 1) + 1 =
        (find_optimal_path_full [Base.A, Base.A] (buildIndex [Base.A])).1 0 :=
  C3_tiebreak [Base.A, Base.A] (buildIndex [Base.A]) 0 0 ⟨0, 0, false⟩
    (by norm_num [UINT64]) (le_refl 0) (by decide) (by rfl) rfl (by rfl)

/-- C10: for every trace array produced by `find_optimal_path`: every
stored decision resumes at `query_end + 1`, strictly beyond its own
position, at a position that either equals `query_len` or again holds a
decision; consequently if position 0 holds a decision then
`reconstruct_path` terminates with a segment list, and any
`AlignmentBreak` it throws names position 0. -/
theorem C10_reconstruct_safety (q : List Base) (m : HashIndex)
    (hL : q.length + 22 < UINT64) :
    (∀ i t, i < q.length → find_optimal_path q m i = some t →
      t.next = t.query_end + 1 ∧ i < t.next ∧
      (t.next = q.length ∨ find_optimal_path q m t.next ≠ none)) ∧
    (∀ t, find_optimal_path q m 0 = some t →
      ∃ segs, reconstruct_path (find_optimal_path q m) q.length = RecResult.ok segs) ∧
    (∀ p, reconstruct_path (find_optimal_path q m) q.length = RecResult.breakAt p →
      p = 0) := by
  have hLS : q.length < SENTINEL := by
    rw [SENTINEL_eq]
    rw [UINT64_eq] at hL
    omega
  refine ⟨?_, ?_, ?_⟩
  · intro i t hi ht
    have ht' : (find_optimal_path_full q m).2 i = some t := ht
    obtain ⟨_, hcorr, _, _⟩ := (plan_final q m hL).1 i hi
    rcases hcorr with ⟨_, htrn⟩ | ⟨t', hc1, hc2, hc3, hc4, hc5, hc6, hc7, hc8, hc9⟩
    · rw [ht'] at htrn
      exact absurd htrn (by simp)
    · have htt : t' = t := by
        rw [ht'] at hc1
        injection hc1 with h
        exact h.symm
      subst htt
      refine ⟨hc5, by omega, ?_⟩
      rcases Nat.lt_or_ge t'.next q.length with hnext | hnext
      · right
        obtain ⟨_, hcorr2, _, _⟩ := (plan_final q m hL).1 t'.next hnext
        rcases hcorr2 with ⟨hs2, _⟩ | ⟨t2, hd1, _, _, _, _, _, _, _, _⟩
        · exfalso
          omega
        · show (find_optimal_path_full q m).2 t'.next ≠ none
          rw [hd1]
          simp
      · left
        omega
  · intro t ht
    exact align_ok_of_trace0 hL ht
  · intro p hB
    exact (align_break_main hL hB).1

/-- Witness for C10 at reference-free index `[]` and query `"A"`. -/
theorem C10_witness :
    (∀ i t, i < [Base.A].length → find_optimal_path [Base.A] [] i = some t →
      t.next = t.query_end + 1 ∧ i < t.next ∧
      (t.next = [Base.A].length ∨ find_optimal_path [Base.A] [] t.next ≠ none)) ∧
    (∀ t, find_optimal_path [Base.A] [] 0 = some t →
      ∃ segs, reconstruct_path (find_optimal_path [Base.A] [])
        [Base.A].length = RecResult.ok segs) ∧
    (∀ p, reconstruct_path (find_optimal_path [Base.A] [])
      [Base.A].length = RecResult.breakAt p → p = 0) :=
  C10_reconstruct_safety [Base.A] [] (by norm_num [UINT64])
